import Mathlib

/-! # go-mrt-parser: a shallow embedding of the MRT decoding pipeline

The Go package `mrt` (files `pkg/mrt/Parser.go`, `pkg/mrt/TableDumpV2.go`) is
embedded as pure functions over byte lists.

* A reader (`*os.File`, `*bytes.Buffer`) is the list of bytes it still holds; every
  function that reads returns the reader that is left.
* `binary.Read` reads through `io.ReadFull` into a scratch buffer and decodes into the
  destination only when the scratch buffer was filled; on a short read the bytes are
  consumed and the destination keeps its old value, which is the zero value at every
  call site of this package.
* The two `for { ... }` loops run on fuel; `Parse` and `ParseBGPAttributes` supply
  one unit of fuel more than the reader holds bytes, and return `none` only if that
  fuel runs out (it never does, see `attributesLoop_fuel` and `parseLoop_fuel`).
* Unsigned machine integers are naturals; `time.Unix (s, 0)` is the number `s` of
  seconds.
-/

namespace mrt

/-! ## Bytes and readers -/

abbrev Byte := Fin 256

/-- The two error values of package `io` that a short read can produce. -/
inductive GoError where
  | EOF
  | ErrUnexpectedEOF
  deriving DecidableEq, Repr

/-- The value of `n` as a `uint8`. -/
def byteOf (n : Nat) : Byte := ⟨n % 256, Nat.mod_lt _ (by decide)⟩

/-- Big-endian value of a byte run (`binary.BigEndian.Uint16`, `Uint32`). -/
def beUint (bs : List Byte) : Nat := bs.foldl (fun acc b => acc * 256 + b.val) 0

/-- A freshly made `[]byte` of length `n` (`make([]byte, n)`). -/
def zeros (n : Nat) : List Byte := List.replicate n 0

/-- `io.ReadFull(r, buf)` with `len(buf) = n`: the error, the bytes put in `buf` when
there is no error, and the reader left behind. Both `os.File` and `bytes.Buffer` hand
out what they hold and then report `io.EOF`; `ReadFull` turns that into `io.EOF` when
nothing was read and `io.ErrUnexpectedEOF` when some but not all bytes were read. A
request for zero bytes never touches the reader. -/
def ReadFull (r : List Byte) (n : Nat) : Option GoError × List Byte × List Byte :=
  if n ≤ r.length then (none, r.take n, r.drop n)
  else if r.length = 0 then (some GoError.EOF, [], [])
  else (some GoError.ErrUnexpectedEOF, [], [])

/-- `binary.Read(r, order, dst)` for a destination of `n` encoded bytes that holds its
zero value before the call: the error, the encoded bytes of the destination after the
call (the bytes read, or `n` zero bytes when the read fell short), and the reader left
behind. -/
def binaryRead (r : List Byte) (n : Nat) : Option GoError × List Byte × List Byte :=
  match ReadFull r n with
  | (none, bs, rest) => (none, bs, rest)
  | (some e, _, rest) => (some e, zeros n, rest)

/-- `io.CopyN(dst, src, n)` into an empty buffer: the buffer afterwards, the error and
the source left behind. `CopyN` copies what the source has, up to `n` bytes, and
reports `io.EOF` exactly when fewer than `n` bytes were copied. -/
def CopyN (src : List Byte) (n : Nat) : List Byte × Option GoError × List Byte :=
  (src.take n, if n ≤ src.length then none else some GoError.EOF, src.drop n)

/-! ## Data model (`Parser.go`, `TableDumpV2.go`) -/

def TABLE_DUMP_V2 : Nat := 13

def PEER_INDEX_TABLE : Nat := 1
def RIB_IPV4_UNICAST : Nat := 2
def RIB_IPV4_MULTICAST : Nat := 3
def RIB_IPV6_UNICAST : Nat := 4
def RIB_IPV6_MULTICAST : Nat := 5
def RIB_GENERIC : Nat := 6

def BGP_ATTR_FLAG_OPTIONAL : Nat := 0b10000000
def BGP_ATTR_FLAG_TRANSITIVE : Nat := 0b01000000
def BGP_ATTR_FLAG_PARTIAL : Nat := 0b00100000
def BGP_ATTR_FLAG_EXTENDED : Nat := 0b00010000

structure header where
  Timestamp : Nat
  Type_ : Nat
  Subtype : Nat
  DataLength : Nat
  deriving DecidableEq, Repr

structure PeerEntry where
  PeerIndex : Nat
  PeerType : Nat
  PeerBGPId : List Byte
  PeerIPAddress : List Byte
  PeerAS : Nat
  deriving DecidableEq, Repr

structure PeerIndexTable where
  CollectorBGPId : List Byte
  ViewName : List Byte
  PeerEntries : List PeerEntry
  deriving DecidableEq, Repr

structure BGPAttribute where
  Optional : Bool
  Transitive : Bool
  Partial : Bool
  Extended : Bool
  Type_ : Nat
  Data : List Byte
  deriving DecidableEq, Repr

structure RIBEntry where
  PeerIndex : Nat
  OriginatedTime : Nat
  BGPPathAttributes : List BGPAttribute
  deriving DecidableEq, Repr

structure RIBTable where
  SequenceNum : Nat
  PrefixLen : Nat
  Prefix : List Byte
  RIBEntries : List RIBEntry
  deriving DecidableEq, Repr

/-- The dynamic value stored in `Record.Data` (`interface{}`): `nil`, a
`PeerIndexTable` or a `RIBTable`. -/
inductive TableDump where
  | nil
  | peerIndexTable (t : PeerIndexTable)
  | ribTable (t : RIBTable)
  deriving DecidableEq, Repr

structure Record where
  Timestamp : Nat
  Type_ : Nat
  SubType : Nat
  Data : TableDump
  deriving DecidableEq, Repr

structure Parser where
  File : List Byte
  Records : List Record
  deriving DecidableEq, Repr

/-! ## `ParseBGPAttributes` -/

/-- The attribute appended by one iteration of the loop of `ParseBGPAttributes`, from
the three header bytes and the payload slice. -/
def mkAttribute (hb : List Byte) (data : List Byte) : BGPAttribute :=
  let AttributeFlag := (hb.getD 0 0).val
  let AttributeType := (hb.getD 1 0).val
  { Optional := AttributeFlag &&& BGP_ATTR_FLAG_OPTIONAL == BGP_ATTR_FLAG_OPTIONAL
    Transitive := AttributeFlag &&& BGP_ATTR_FLAG_TRANSITIVE == BGP_ATTR_FLAG_TRANSITIVE
    Partial := AttributeFlag &&& BGP_ATTR_FLAG_PARTIAL == BGP_ATTR_FLAG_PARTIAL
    Extended := AttributeFlag &&& BGP_ATTR_FLAG_EXTENDED == BGP_ATTR_FLAG_EXTENDED
    Type_ := AttributeType
    Data := data }

/-- The `for { ... }` loop of `ParseBGPAttributes`: only `io.EOF` from the header read
leaves the loop; the error of the payload read is dropped. -/
def attributesLoop : Nat → List Byte → List BGPAttribute → Option (List BGPAttribute × List Byte)
  | 0, _, _ => none
  | fuel + 1, r, bgpAttributes =>
    match binaryRead r 3 with
    | (some GoError.EOF, _, r1) => some (bgpAttributes, r1)
    | (_, hb, r1) =>
      let AttributeLength := (hb.getD 2 0).val
      match binaryRead r1 AttributeLength with
      | (_, data, r2) => attributesLoop fuel r2 (bgpAttributes ++ [mkAttribute hb data])

def ParseBGPAttributes (r : List Byte) : Option (List BGPAttribute × List Byte) :=
  attributesLoop (r.length + 1) r []

/-! ## `ParsePeerIndexTable` -/

/-- The `switch peerType` of `ParsePeerIndexTable`: the lengths of the slices made for
`peerIPAddr` and `peerAS`. No case matches a type above 3, and both slices stay `nil`. -/
def peerFieldLengths (peerType : Nat) : Nat × Nat :=
  match peerType with
  | 0 => (8, 2)
  | 1 => (16, 2)
  | 2 => (8, 4)
  | 3 => (16, 4)
  | _ => (0, 0)

/-- The loop `for i := 0; i < int(peerCount); i++` of `ParsePeerIndexTable`; the first
argument is the number of iterations still to run. -/
def peerEntriesLoop : Nat → Nat → List Byte → List PeerEntry → List PeerEntry × List Byte
  | 0, _, r, PeerEntries => (PeerEntries, r)
  | n + 1, i, r, PeerEntries =>
    match binaryRead r 1 with
    | (_, tb, r1) =>
      let peerType := beUint tb
      match binaryRead r1 4 with
      | (_, peerBGPId, r2) =>
        match binaryRead r2 (peerFieldLengths peerType).1 with
        | (_, peerIPAddr, r3) =>
          match binaryRead r3 (peerFieldLengths peerType).2 with
          | (_, _, r4) =>
            peerEntriesLoop n (i + 1) r4
              (PeerEntries ++ [{ PeerIndex := i, PeerType := peerType, PeerBGPId := peerBGPId,
                                 PeerIPAddress := peerIPAddr, PeerAS := 0 }])

def ParsePeerIndexTable (r : List Byte) : PeerIndexTable × List Byte :=
  match binaryRead r 6 with
  | (_, hb, r1) =>
    let CollectorBGPId := hb.take 4
    let ViewNameLength := beUint (hb.drop 4)
    match (if ViewNameLength > 0 then
             (match binaryRead r1 ViewNameLength with | (_, viewName, r2) => (viewName, r2))
           else ([], r1)) with
    | (ViewName, r2) =>
      match binaryRead r2 2 with
      | (_, cb, r3) =>
        let peerCount := beUint cb
        match peerEntriesLoop peerCount 0 r3 [] with
        | (PeerEntries, r4) =>
          ({ CollectorBGPId := CollectorBGPId, ViewName := ViewName, PeerEntries := PeerEntries }, r4)

/-! ## `ParseRIBIPV6` -/

/-- The loop `for i := 0; i < int(entryCount); i++` of `ParseRIBIPV6`; the first
argument is the number of iterations still to run. The attribute bytes are copied with
`io.CopyN` into a buffer of their own, which `ParseBGPAttributes` then reads. -/
def ribEntriesLoop : Nat → List Byte → List RIBEntry → Option (List RIBEntry × List Byte)
  | 0, r, RIBEntries => some (RIBEntries, r)
  | n + 1, r, RIBEntries =>
    match binaryRead r 8 with
    | (_, eb, r1) =>
      let PeerIndex := beUint (eb.take 2)
      let OriginatedTime := beUint ((eb.drop 2).take 4)
      let AttributeLen := beUint (eb.drop 6)
      match CopyN r1 AttributeLen with
      | (bgpAttributeBuffer, _, r2) =>
        match ParseBGPAttributes bgpAttributeBuffer with
        | none => none
        | some (bgpAttributes, _) =>
          ribEntriesLoop n r2
            (RIBEntries ++ [{ PeerIndex := PeerIndex, OriginatedTime := OriginatedTime,
                              BGPPathAttributes := bgpAttributes }])

def ParseRIBIPV6 (r : List Byte) : Option (RIBTable × List Byte) :=
  match binaryRead r 5 with
  | (_, hb, r1) =>
    let SeqNum := beUint (hb.take 4)
    let PrefixLen := beUint (hb.drop 4)
    let prefixBytes := PrefixLen / 8
    match binaryRead r1 prefixBytes with
    | (_, pfx, r2) =>
      let pfx := pfx ++ zeros ((16 + 256 - prefixBytes) % 256)
      match binaryRead r2 2 with
      | (_, cb, r3) =>
        let entryCount := beUint cb
        match ribEntriesLoop entryCount r3 [] with
        | none => none
        | some (RIBEntries, r4) =>
          some ({ SequenceNum := SeqNum, PrefixLen := PrefixLen, Prefix := pfx,
                  RIBEntries := RIBEntries }, r4)

/-! ## `ParseTableDumpV2` -/

def ParseTableDumpV2 (r : List Byte) (subType : Nat) : Option (TableDump × List Byte) :=
  if subType = PEER_INDEX_TABLE then
    some (TableDump.peerIndexTable (ParsePeerIndexTable r).1, (ParsePeerIndexTable r).2)
  else if subType = RIB_IPV6_UNICAST ∨ subType = RIB_IPV6_MULTICAST then
    match ParseRIBIPV6 r with
    | none => none
    | some (t, r1) => some (TableDump.ribTable t, r1)
  else some (TableDump.nil, r)

/-! ## `Parser.Parse` -/

/-- The header decoded from the twelve bytes `binary.Read` leaves in it. -/
def decodeHeader (bs : List Byte) : header :=
  { Timestamp := beUint (bs.take 4)
    Type_ := beUint ((bs.drop 4).take 2)
    Subtype := beUint ((bs.drop 6).take 2)
    DataLength := beUint ((bs.drop 8).take 4) }

/-- `p.parseInto(header)` on a fresh `header`: `binary.Read` of a twelve-byte struct. -/
def parseInto (file : List Byte) : Option GoError × header × List Byte :=
  match binaryRead file 12 with
  | (err, bs, rest) => (err, decodeHeader bs, rest)

/-- The `switch header.Type` of `Parse`: `data` stays `nil` unless the type is
`TABLE_DUMP_V2`. -/
def parseData (h : header) (buffer : List Byte) : Option TableDump :=
  if h.Type_ = TABLE_DUMP_V2 then
    match ParseTableDumpV2 buffer h.Subtype with
    | none => none
    | some (data, _) => some data
  else some TableDump.nil

/-- The `for { ... }` loop of `Parse`: it is left when the header read or the body
copy reports `io.EOF`, and on no other error. -/
def parseLoop : Nat → List Byte → List Record → Option Parser
  | 0, _, _ => none
  | fuel + 1, file, Records =>
    match parseInto file with
    | (some GoError.EOF, _, file1) => some { File := file1, Records := Records }
    | (_, h, file1) =>
      match CopyN file1 h.DataLength with
      | (_, some GoError.EOF, file2) => some { File := file2, Records := Records }
      | (buffer, _, file2) =>
        match parseData h buffer with
        | none => none
        | some data =>
          parseLoop fuel file2
            (Records ++ [{ Timestamp := h.Timestamp, Type_ := h.Type_, SubType := h.Subtype,
                           Data := data }])

/-- `(p *Parser) Parse()`: `p.Records` is reset and the loop runs over `p.File`. -/
def Parse (p : Parser) : Option Parser :=
  parseLoop (p.File.length + 1) p.File []

/-! ## Inputs of the statements: complete TLVs and complete records -/

/-- One attribute as it is written on the wire: flag byte, type byte, payload. -/
structure TLV where
  flag : Byte
  type_ : Byte
  payload : List Byte
  deriving DecidableEq, Repr

/-- The TLV with a one-byte length: flag, type, length, payload. -/
def encodeTLV (a : TLV) : List Byte :=
  a.flag :: a.type_ :: byteOf a.payload.length :: a.payload

def encodeTLVs : List TLV → List Byte
  | [] => []
  | a :: as => encodeTLV a ++ encodeTLVs as

/-- The attribute a TLV stands for: the four flag bits 7, 6, 5, 4 of the flag byte,
the type and the payload. -/
def attributeOf (a : TLV) : BGPAttribute :=
  { Optional := a.flag.val.testBit 7
    Transitive := a.flag.val.testBit 6
    Partial := a.flag.val.testBit 5
    Extended := a.flag.val.testBit 4
    Type_ := a.type_.val
    Data := a.payload }

/-- The sum of `3 + len(Data)` over a sequence of attributes. -/
def attributesSize (as : List BGPAttribute) : Nat :=
  (as.map (fun a => 3 + a.Data.length)).sum

/-- One record as it is written in the stream: the header fields and the body. -/
structure RawRecord where
  timestamp : Nat
  type_ : Nat
  subtype : Nat
  body : List Byte
  deriving DecidableEq, Repr

/-- The header fields fit their widths: u32 timestamp, u16 type, u16 subtype, and a
body length that fits the u32 `dataLength`. -/
def RawRecord.complete (r : RawRecord) : Prop :=
  r.timestamp < 2 ^ 32 ∧ r.type_ < 2 ^ 16 ∧ r.subtype < 2 ^ 16 ∧ r.body.length < 2 ^ 32

instance (r : RawRecord) : Decidable r.complete := by
  unfold RawRecord.complete; infer_instance

def encodeU16 (n : Nat) : List Byte := [byteOf (n / 2 ^ 8), byteOf n]

def encodeU32 (n : Nat) : List Byte :=
  [byteOf (n / 2 ^ 24), byteOf (n / 2 ^ 16), byteOf (n / 2 ^ 8), byteOf n]

/-- The twelve header bytes: timestamp u32, type u16, subtype u16, dataLength u32, all
big-endian. -/
def encodeHeader (h : header) : List Byte :=
  encodeU32 h.Timestamp ++ (encodeU16 h.Type_ ++ (encodeU16 h.Subtype ++ encodeU32 h.DataLength))

def RawRecord.header (r : RawRecord) : header :=
  { Timestamp := r.timestamp, Type_ := r.type_, Subtype := r.subtype,
    DataLength := r.body.length }

def encodeRecord (r : RawRecord) : List Byte := encodeHeader r.header ++ r.body

def encodeRecords : List RawRecord → List Byte
  | [] => []
  | r :: rs => encodeRecord r ++ encodeRecords rs

/-- Record `rec` is what the stream record `r` decodes to: header fields copied, and
`Data` decoded by the dispatch from exactly the body bytes of `r`. -/
def Decodes (r : RawRecord) (rec : Record) : Prop :=
  rec.Timestamp = r.timestamp ∧ rec.Type_ = r.type_ ∧ rec.SubType = r.subtype ∧
    parseData r.header r.body = some rec.Data

/-- Record `rec` is what the stream record `r` must decode to, written out decoder by
decoder: the header fields copied; for type 13 and subtype 1 the table that
`ParsePeerIndexTable` returns on the body, for type 13 and subtype 4 or 5 the table that
`ParseRIBIPV6` returns on the body, and nil for every other subtype of type 13 and for
every other type. -/
def DecodesBody (r : RawRecord) (rec : Record) : Prop :=
  rec.Timestamp = r.timestamp ∧ rec.Type_ = r.type_ ∧ rec.SubType = r.subtype ∧
    (r.type_ = 13 → r.subtype = 1 →
      rec.Data = TableDump.peerIndexTable (ParsePeerIndexTable r.body).1) ∧
    (r.type_ = 13 → r.subtype = 4 ∨ r.subtype = 5 →
      ∃ t rest, ParseRIBIPV6 r.body = some (t, rest) ∧ rec.Data = TableDump.ribTable t) ∧
    (r.type_ = 13 → r.subtype ≠ 1 → r.subtype ≠ 4 → r.subtype ≠ 5 →
      rec.Data = TableDump.nil) ∧
    (r.type_ ≠ 13 → rec.Data = TableDump.nil)

/-- Two complete records: a peer-index table (type 13, subtype 1) with an empty view
name and no peers, and a record of a type other than 13. -/
def sampleRecords : List RawRecord :=
  [{ timestamp := 1, type_ := 13, subtype := 1, body := [1, 2, 3, 4, 0, 0, 0, 0] },
   { timestamp := 2, type_ := 16, subtype := 4, body := [9] }]

/-- Three complete records: a peer-index table (type 13, subtype 1) with collector id
1.2.3.4, an empty view name and no peers; a RIB table (type 13, subtype 4) with sequence
number 7, prefix length 0 and no entries; and a record of type 16. -/
def sampleStream : List RawRecord :=
  [{ timestamp := 1, type_ := 13, subtype := 1, body := [1, 2, 3, 4, 0, 0, 0, 0] },
   { timestamp := 2, type_ := 13, subtype := 4, body := [0, 0, 0, 7, 0, 0, 0] },
   { timestamp := 3, type_ := 16, subtype := 4, body := [9] }]

/-- Two complete TLVs: an optional attribute of type 1 with a two-byte payload and a
transitive, extended attribute of type 2 with an empty payload. -/
def sampleTLVs : List TLV :=
  [{ flag := 0x80, type_ := 1, payload := [7, 8] }, { flag := 0x50, type_ := 2, payload := [] }]

/-- The fields of a header fit their widths. -/
def header.fits (h : header) : Prop :=
  h.Timestamp < 2 ^ 32 ∧ h.Type_ < 2 ^ 16 ∧ h.Subtype < 2 ^ 16 ∧ h.DataLength < 2 ^ 32

instance (h : header) : Decidable h.fits := by
  unfold header.fits; infer_instance

/-- The flag byte with the given bits 7, 6, 5, 4 and the given low four bits. -/
def flagByte (o t p e : Bool) (lo : Fin 16) : Byte :=
  byteOf (128 * o.toNat + 64 * t.toNat + 32 * p.toNat + 16 * e.toNat + lo.val)

/-- The flag byte with bit 4 changed. -/
def flipExtended (f : Byte) : Byte := byteOf (f.val ^^^ 16)

/-- A peer-index body with collector 192.0.2.1, the view name `ab`, a peer count of 3
and a single complete peer entry of type 1. -/
def samplePeerBody : List Byte :=
  [192, 0, 2, 1] ++ (encodeU16 ([97, 98] : List Byte).length ++ ([97, 98] ++ (encodeU16 3 ++
    [1, 10, 0, 0, 2, 0x20, 0x01, 0x0d, 0xb8, 0, 0, 0, 0, 0, 0, 0, 0, 0, 0, 0, 2, 0xFD, 0xE9])))

/-- One RIB entry as it is written in the body: peer index, originated time and the
attribute bytes. -/
structure RawRIBEntry where
  peerIndex : Nat
  originatedTime : Nat
  attributes : List Byte
  deriving DecidableEq, Repr

/-- The fields fit their widths: u16 peer index, u32 time, and an attribute run whose
length fits the u16 attribute length. -/
def RawRIBEntry.complete (e : RawRIBEntry) : Prop :=
  e.peerIndex < 2 ^ 16 ∧ e.originatedTime < 2 ^ 32 ∧ e.attributes.length < 2 ^ 16

instance (e : RawRIBEntry) : Decidable e.complete := by
  unfold RawRIBEntry.complete; infer_instance

/-- The eight-byte entry header: peer index u16, originated time u32, attribute
length u16, big-endian. -/
def encodeRIBEntryHeader (peerIndex originatedTime attributeLen : Nat) : List Byte :=
  encodeU16 peerIndex ++ (encodeU32 originatedTime ++ encodeU16 attributeLen)

def encodeRIBEntry (e : RawRIBEntry) : List Byte :=
  encodeRIBEntryHeader e.peerIndex e.originatedTime e.attributes.length ++ e.attributes

def encodeRIBEntries : List RawRIBEntry → List Byte
  | [] => []
  | e :: es => encodeRIBEntry e ++ encodeRIBEntries es

/-- The RIB body up to and including the entry count: sequence number u32, prefix
length byte, prefix bytes, entry count u16. -/
def encodeRIBFront (seq : Nat) (p : Byte) (pfx : List Byte) (entryCount : Nat) : List Byte :=
  encodeU32 seq ++ (p :: (pfx ++ encodeU16 entryCount))

/-- Entry `x` is what the body entry `e` decodes to: the two header fields copied, and
the attributes those `ParseBGPAttributes` returns on exactly the attribute bytes of
`e`. -/
def EntryDecodes (e : RawRIBEntry) (x : RIBEntry) : Prop :=
  x.PeerIndex = e.peerIndex ∧ x.OriginatedTime = e.originatedTime ∧
    (ParseBGPAttributes e.attributes).map Prod.fst = some x.BGPPathAttributes

/-- Two complete RIB entries: one with two complete attribute TLVs, one with no
attribute bytes. -/
def sampleRIBEntries : List RawRIBEntry :=
  [{ peerIndex := 3, originatedTime := 1600000000, attributes := [0x40, 1, 1, 0, 0x80, 4, 0] },
   { peerIndex := 5, originatedTime := 1600000001, attributes := [] }]

/-! # Lemmas -/

/-! ## Readers -/

theorem binaryRead_of_le (r : List Byte) (n : Nat) (h : n ≤ r.length) :
    binaryRead r n = (none, r.take n, r.drop n) := by
  simp [binaryRead, ReadFull, h]

theorem binaryRead_append (bs rest : List Byte) (n : Nat) (h : bs.length = n) :
    binaryRead (bs ++ rest) n = (none, bs, rest) := by
  subst h
  rw [binaryRead_of_le _ _ (by simp)]
  simp

theorem binaryRead_nil (n : Nat) (h : 0 < n) :
    binaryRead [] n = (some GoError.EOF, zeros n, []) := by
  have h1 : ¬ n ≤ 0 := by omega
  simp [binaryRead, ReadFull, h1]

theorem binaryRead_zero (r : List Byte) : binaryRead r 0 = (none, [], r) := by
  simp [binaryRead, ReadFull]

theorem binaryRead_short (r : List Byte) (n : Nat) (h : r.length < n) (hr : r ≠ []) :
    binaryRead r n = (some GoError.ErrUnexpectedEOF, zeros n, []) := by
  have h1 : ¬ n ≤ r.length := by omega
  simp [binaryRead, ReadFull, h1, hr]

theorem binaryRead_rest_le (r : List Byte) (n : Nat) :
    (binaryRead r n).2.2.length ≤ r.length := by
  by_cases h : n ≤ r.length
  · rw [binaryRead_of_le r n h]; simp
  · by_cases hr : r = []
    · subst hr; rw [binaryRead_nil n (Nat.pos_of_ne_zero (by simpa using h))]
    · rw [binaryRead_short r n (by omega) hr]; simp

theorem binaryRead_data_length (r : List Byte) (n : Nat) :
    (binaryRead r n).2.1.length = n := by
  by_cases h : n ≤ r.length
  · rw [binaryRead_of_le r n h]; simp [h]
  · by_cases hr : r = []
    · subst hr; rw [binaryRead_nil n (Nat.pos_of_ne_zero (by simpa using h))]; simp [zeros]
    · rw [binaryRead_short r n (by omega) hr]; simp [zeros]

/-! ## The attribute loop -/

set_option maxRecDepth 100000 in
theorem testBit_flag (f : Byte) :
    (f.val &&& BGP_ATTR_FLAG_OPTIONAL == BGP_ATTR_FLAG_OPTIONAL) = f.val.testBit 7 ∧
    (f.val &&& BGP_ATTR_FLAG_TRANSITIVE == BGP_ATTR_FLAG_TRANSITIVE) = f.val.testBit 6 ∧
    (f.val &&& BGP_ATTR_FLAG_PARTIAL == BGP_ATTR_FLAG_PARTIAL) = f.val.testBit 5 ∧
    (f.val &&& BGP_ATTR_FLAG_EXTENDED == BGP_ATTR_FLAG_EXTENDED) = f.val.testBit 4 := by
  revert f
  decide

theorem mkAttribute_encode (a : TLV) (l : Byte) :
    mkAttribute [a.flag, a.type_, l] a.payload = attributeOf a := by
  obtain ⟨h7, h6, h5, h4⟩ := testBit_flag a.flag
  simp [mkAttribute, attributeOf, h7, h6, h5, h4]

/-- With more fuel than bytes the attribute loop returns. -/
theorem attributesLoop_fuel (fuel : Nat) :
    ∀ (r : List Byte) (acc : List BGPAttribute), r.length < fuel →
      ∃ out, attributesLoop fuel r acc = some out := by
  induction fuel with
  | zero => intro r acc h; omega
  | succ fuel ih =>
    intro r acc h
    by_cases h3 : 3 ≤ r.length
    · simp only [attributesLoop, binaryRead_of_le r 3 h3]
      refine ih _ _ (Nat.lt_of_le_of_lt (binaryRead_rest_le _ _) ?_)
      simp only [List.length_drop]
      omega
    · by_cases hr : r = []
      · subst hr
        simp [attributesLoop, binaryRead_nil 3 (by decide)]
      · simp only [attributesLoop, binaryRead_short r 3 (by omega) hr]
        have hle := binaryRead_rest_le [] ((zeros 3).getD 2 0).val
        refine ih _ _ (Nat.lt_of_le_of_lt hle ?_)
        have hl : 0 < r.length := List.length_pos.mpr hr
        simp only [List.length_nil]
        omega

theorem ParseBGPAttributes_returns (r : List Byte) :
    ∃ out, ParseBGPAttributes r = some out :=
  attributesLoop_fuel (r.length + 1) r [] (Nat.lt_succ_self _)

/-- One complete TLV at the head of the reader costs one iteration and appends its
attribute. -/
theorem attributesLoop_step (fuel : Nat) (a : TLV) (tail : List Byte)
    (acc : List BGPAttribute) (ha : a.payload.length ≤ 255) :
    attributesLoop (fuel + 1) (encodeTLV a ++ tail) acc
      = attributesLoop fuel tail (acc ++ [attributeOf a]) := by
  have h1 : encodeTLV a ++ tail
      = [a.flag, a.type_, byteOf a.payload.length] ++ (a.payload ++ tail) := by
    simp [encodeTLV]
  have h2 : (byteOf a.payload.length).val = a.payload.length := by
    simp only [byteOf]; omega
  have h3 : (([a.flag, a.type_, byteOf a.payload.length] : List Byte).getD 2 0).val
      = a.payload.length := by
    simpa using h2
  have h4 := binaryRead_append [a.flag, a.type_, byteOf a.payload.length]
    (a.payload ++ tail) 3 rfl
  rw [h1]
  simp only [attributesLoop, h4]
  rw [h3, binaryRead_append _ _ _ rfl, mkAttribute_encode]

theorem attributesLoop_encode (as : List TLV) :
    ∀ (fuel : Nat) (tail : List Byte) (acc : List BGPAttribute),
      (∀ a ∈ as, a.payload.length ≤ 255) →
      attributesLoop (fuel + as.length) (encodeTLVs as ++ tail) acc
        = attributesLoop fuel tail (acc ++ as.map attributeOf) := by
  induction as with
  | nil => intro fuel tail acc _; simp [encodeTLVs]
  | cons a as ih =>
    intro fuel tail acc h
    have ha : a.payload.length ≤ 255 := h a (List.mem_cons_self _ _)
    have hrest : ∀ b ∈ as, b.payload.length ≤ 255 :=
      fun b hb => h b (List.mem_cons_of_mem _ hb)
    have e : fuel + (a :: as).length = (fuel + as.length) + 1 := by simp; omega
    rw [e]
    simp only [encodeTLVs, List.append_assoc]
    rw [attributesLoop_step _ a _ acc ha, ih fuel tail _ hrest]
    simp

theorem length_le_encodeTLVs (as : List TLV) : as.length ≤ (encodeTLVs as).length := by
  induction as with
  | nil => simp
  | cons a as ih => simp [encodeTLVs, encodeTLV]; omega

theorem encodeTLVs_length (as : List TLV) :
    (encodeTLVs as).length = ((as.map attributeOf).map (fun a => 3 + a.Data.length)).sum := by
  induction as with
  | nil => simp [encodeTLVs]
  | cons a as ih => simp [encodeTLVs, encodeTLV, attributeOf, ih]; omega

/-- A run of complete TLVs decodes to their attributes, and the reader is left
empty. -/
theorem ParseBGPAttributes_encode (as : List TLV) (h : ∀ a ∈ as, a.payload.length ≤ 255) :
    ParseBGPAttributes (encodeTLVs as) = some (as.map attributeOf, []) := by
  have hl := length_le_encodeTLVs as
  have e : (encodeTLVs as).length + 1
      = ((encodeTLVs as).length - as.length + 1) + as.length := by omega
  have := attributesLoop_encode as ((encodeTLVs as).length - as.length + 1) [] [] h
  simp only [List.append_nil, List.nil_append] at this
  rw [ParseBGPAttributes, e, this]
  simp [attributesLoop, binaryRead_nil 3 (by decide)]

/-! ## The decoders below `Parse` always return -/

theorem ribEntriesLoop_returns (n : Nat) :
    ∀ (r : List Byte) (acc : List RIBEntry), ∃ out, ribEntriesLoop n r acc = some out := by
  induction n with
  | zero => intro r acc; exact ⟨_, rfl⟩
  | succ n ih =>
    intro r acc
    simp only [ribEntriesLoop]
    obtain ⟨out, hout⟩ := ParseBGPAttributes_returns
      (CopyN (binaryRead r 8).2.2 (beUint (List.drop 6 (binaryRead r 8).2.1))).1
    rw [hout]
    exact ih _ _

theorem ParseRIBIPV6_returns (r : List Byte) : ∃ out, ParseRIBIPV6 r = some out := by
  simp only [ParseRIBIPV6]
  obtain ⟨out, hout⟩ := ribEntriesLoop_returns
    (beUint (binaryRead (binaryRead (binaryRead r 5).2.2
      (beUint (List.drop 4 (binaryRead r 5).2.1) / 8)).2.2 2).2.1)
    (binaryRead (binaryRead (binaryRead r 5).2.2
      (beUint (List.drop 4 (binaryRead r 5).2.1) / 8)).2.2 2).2.2 []
  rw [hout]
  exact ⟨_, rfl⟩

theorem ParseTableDumpV2_returns (r : List Byte) (subType : Nat) :
    ∃ out, ParseTableDumpV2 r subType = some out := by
  unfold ParseTableDumpV2
  split
  · exact ⟨_, rfl⟩
  · split
    · obtain ⟨out, hout⟩ := ParseRIBIPV6_returns r
      rw [hout]
      exact ⟨_, rfl⟩
    · exact ⟨_, rfl⟩

theorem parseData_returns (h : header) (buffer : List Byte) :
    ∃ data, parseData h buffer = some data := by
  unfold parseData
  split
  · obtain ⟨out, hout⟩ := ParseTableDumpV2_returns buffer h.Subtype
    rw [hout]
    exact ⟨_, rfl⟩
  · exact ⟨_, rfl⟩

/-! ## Complete records and the record loop -/

theorem encodeHeader_length (h : header) : (encodeHeader h).length = 12 := rfl

theorem decodeHeader_encodeHeader (h : header) (h1 : h.Timestamp < 2 ^ 32)
    (h2 : h.Type_ < 2 ^ 16) (h3 : h.Subtype < 2 ^ 16) (h4 : h.DataLength < 2 ^ 32) :
    decodeHeader (encodeHeader h) = h := by
  obtain ⟨ts, ty, st, dl⟩ := h
  simp only at h1 h2 h3 h4
  simp only [decodeHeader, encodeHeader, encodeU32, encodeU16, beUint, byteOf, List.take,
    List.drop, List.foldl, List.cons_append, List.nil_append, header.mk.injEq]
  refine ⟨?_, ?_, ?_, ?_⟩ <;> omega

theorem parseInto_encodeHeader (h : header) (rest : List Byte) (h1 : h.Timestamp < 2 ^ 32)
    (h2 : h.Type_ < 2 ^ 16) (h3 : h.Subtype < 2 ^ 16) (h4 : h.DataLength < 2 ^ 32) :
    parseInto (encodeHeader h ++ rest) = (none, h, rest) := by
  simp only [parseInto, binaryRead_append _ _ 12 (encodeHeader_length h),
    decodeHeader_encodeHeader h h1 h2 h3 h4]

theorem CopyN_append (body tail : List Byte) :
    CopyN (body ++ tail) body.length = (body, none, tail) := by
  simp [CopyN]

/-- One complete record at the head of the stream costs one iteration and appends the
record decoded from its header and its own body bytes. -/
theorem parseLoop_step (r : RawRecord) (hr : r.complete) :
    ∃ rec, Decodes r rec ∧ ∀ (fuel : Nat) (tail : List Byte) (acc : List Record),
      parseLoop (fuel + 1) (encodeRecord r ++ tail) acc = parseLoop fuel tail (acc ++ [rec]) := by
  obtain ⟨h1, h2, h3, h4⟩ := hr
  obtain ⟨data, hdata⟩ := parseData_returns r.header r.body
  refine ⟨{ Timestamp := r.timestamp, Type_ := r.type_, SubType := r.subtype, Data := data },
    ⟨rfl, rfl, rfl, hdata⟩, ?_⟩
  intro fuel tail acc
  have e : encodeRecord r ++ tail = encodeHeader r.header ++ (r.body ++ tail) := by
    simp [encodeRecord]
  have hc : CopyN (r.body ++ tail) r.header.DataLength = (r.body, none, tail) :=
    CopyN_append r.body tail
  rw [e]
  simp only [parseLoop, parseInto_encodeHeader r.header _ h1 h2 h3 h4, hc, hdata]
  rfl

theorem parseLoop_records (recs : List RawRecord) (h : ∀ r ∈ recs, r.complete) :
    ∃ rs, List.Forall₂ Decodes recs rs ∧
      ∀ (fuel : Nat) (tail : List Byte) (acc : List Record),
        parseLoop (fuel + recs.length) (encodeRecords recs ++ tail) acc
          = parseLoop fuel tail (acc ++ rs) := by
  induction recs with
  | nil => exact ⟨[], List.Forall₂.nil, by simp [encodeRecords]⟩
  | cons r recs ih =>
    have hr : r.complete := h r (List.mem_cons_self _ _)
    have hrest : ∀ b ∈ recs, b.complete := fun b hb => h b (List.mem_cons_of_mem _ hb)
    obtain ⟨rec, hrec, hstep⟩ := parseLoop_step r hr
    obtain ⟨rs, hrs, hloop⟩ := ih hrest
    refine ⟨rec :: rs, List.Forall₂.cons hrec hrs, ?_⟩
    intro fuel tail acc
    have e : fuel + (r :: recs).length = (fuel + recs.length) + 1 := by simp; omega
    rw [e]
    simp only [encodeRecords, List.append_assoc]
    rw [hstep, hloop]
    simp

theorem length_le_encodeRecords (recs : List RawRecord) :
    recs.length ≤ (encodeRecords recs).length := by
  induction recs with
  | nil => simp
  | cons r recs ih =>
    simp [encodeRecords, encodeRecord, encodeHeader_length]; omega

theorem decodeHeader_zeros :
    decodeHeader (zeros 12) = { Timestamp := 0, Type_ := 0, Subtype := 0, DataLength := 0 } := by
  decide

/-- A partial header (1 to 11 bytes left in the stream) does not leave the loop: the
read reports `io.ErrUnexpectedEOF`, the header keeps its zero value, the empty body is
copied and a record of zero values is appended. -/
theorem parseLoop_short_header (fuel : Nat) (file : List Byte) (acc : List Record)
    (h1 : file ≠ []) (h2 : file.length < 12) :
    parseLoop (fuel + 1) file acc
      = parseLoop fuel []
          (acc ++ [{ Timestamp := 0, Type_ := 0, SubType := 0, Data := TableDump.nil }]) := by
  simp only [parseLoop, parseInto, binaryRead_short file 12 h2 h1, decodeHeader_zeros]
  simp [CopyN, parseData, TABLE_DUMP_V2]

theorem parseLoop_nil (fuel : Nat) (acc : List Record) :
    parseLoop (fuel + 1) [] acc = some { File := [], Records := acc } := by
  simp [parseLoop, parseInto, binaryRead_nil 12 (by decide)]

/-- A complete header whose body is cut short leaves the loop with the records
gathered so far. -/
theorem parseLoop_short_body (fuel : Nat) (file : List Byte) (acc : List Record)
    (h1 : 12 ≤ file.length)
    (h2 : (file.drop 12).length < (decodeHeader (file.take 12)).DataLength) :
    parseLoop (fuel + 1) file acc = some { File := [], Records := acc } := by
  have h3 : ¬ (decodeHeader (file.take 12)).DataLength ≤ (file.drop 12).length := by omega
  have h4 : List.drop (decodeHeader (file.take 12)).DataLength (file.drop 12) = [] :=
    List.drop_eq_nil_of_le (by omega)
  simp only [parseLoop, parseInto, binaryRead_of_le file 12 h1, CopyN, h3, if_false, h4]

/-- With more fuel than bytes the record loop returns; it leaves the stream empty and
keeps the records gathered before. -/
theorem parseLoop_fuel (fuel : Nat) :
    ∀ (file : List Byte) (acc : List Record), file.length < fuel →
      ∃ p, parseLoop fuel file acc = some p ∧ p.File = [] ∧ acc <+: p.Records := by
  induction fuel with
  | zero => intro file acc h; omega
  | succ fuel ih =>
    intro file acc h
    by_cases hnil : file = []
    · subst hnil
      exact ⟨_, parseLoop_nil fuel acc, rfl, List.prefix_refl _⟩
    · have hpos : 0 < file.length := List.length_pos.mpr hnil
      by_cases h12 : 12 ≤ file.length
      · by_cases hb : (decodeHeader (file.take 12)).DataLength ≤ (file.drop 12).length
        · obtain ⟨data, hdata⟩ := parseData_returns (decodeHeader (file.take 12))
            ((file.drop 12).take (decodeHeader (file.take 12)).DataLength)
          simp only [parseLoop, parseInto, binaryRead_of_le file 12 h12, CopyN, hb, if_true,
            hdata]
          obtain ⟨p, hp, hf, hpre⟩ := ih
            (List.drop (decodeHeader (file.take 12)).DataLength (file.drop 12))
            (acc ++ [{ Timestamp := (decodeHeader (file.take 12)).Timestamp,
                       Type_ := (decodeHeader (file.take 12)).Type_,
                       SubType := (decodeHeader (file.take 12)).Subtype, Data := data }])
            (by simp only [List.length_drop]; omega)
          exact ⟨p, hp, hf, List.IsPrefix.trans (List.prefix_append _ _) hpre⟩
        · exact ⟨_, parseLoop_short_body fuel file acc h12 (by omega), rfl,
            List.prefix_refl _⟩
      · rw [parseLoop_short_header fuel file acc hnil (by omega)]
        obtain ⟨p, hp, hf, hpre⟩ := ih []
          (acc ++ [{ Timestamp := 0, Type_ := 0, SubType := 0, Data := TableDump.nil }])
          (by simp only [List.length_nil]; omega)
        exact ⟨p, hp, hf, List.IsPrefix.trans (List.prefix_append _ _) hpre⟩

theorem Parse_returns (p : Parser) : ∃ q, Parse p = some q ∧ q.File = [] := by
  obtain ⟨q, hq, hf, _⟩ := parseLoop_fuel (p.File.length + 1) p.File [] (Nat.lt_succ_self _)
  exact ⟨q, hq, hf⟩

theorem Parse_records_tail (recs : List RawRecord) (h : ∀ r ∈ recs, r.complete) :
    ∃ rs, List.Forall₂ Decodes recs rs ∧ ∀ (tail : List Byte) (old : List Record),
      Parse { File := encodeRecords recs ++ tail, Records := old }
        = parseLoop (tail.length + ((encodeRecords recs).length - recs.length) + 1) tail rs := by
  obtain ⟨rs, hrs, hloop⟩ := parseLoop_records recs h
  refine ⟨rs, hrs, ?_⟩
  intro tail old
  have hl := length_le_encodeRecords recs
  have e : (encodeRecords recs ++ tail).length + 1
      = (tail.length + ((encodeRecords recs).length - recs.length) + 1) + recs.length := by
    simp only [List.length_append]; omega
  simp only [Parse]
  rw [e, hloop]
  simp

/-- The dispatch of `Parse` written out: what it stores in Data is the table of the
decoder the type and subtype select, run on the body of the record, or nil. -/
theorem Decodes_body (r : RawRecord) (rec : Record) (h : Decodes r rec) :
    DecodesBody r rec := by
  obtain ⟨h1, h2, h3, h4⟩ := h
  refine ⟨h1, h2, h3, ?_, ?_, ?_, ?_⟩
  · intro ht hs
    simp only [parseData, RawRecord.header, TABLE_DUMP_V2, ht, ParseTableDumpV2, hs,
      PEER_INDEX_TABLE, if_true, Option.some.injEq] at h4
    exact h4.symm
  · intro ht hs
    obtain ⟨⟨t, rest⟩, hout⟩ := ParseRIBIPV6_returns r.body
    have hs1 : r.subtype ≠ 1 := by omega
    simp only [parseData, RawRecord.header, TABLE_DUMP_V2, ht, ParseTableDumpV2, hs, hs1,
      PEER_INDEX_TABLE, RIB_IPV6_UNICAST, RIB_IPV6_MULTICAST, if_true, if_false, hout,
      Option.some.injEq] at h4
    exact ⟨t, rest, hout, h4.symm⟩
  · intro ht hs1 hs4 hs5
    have hs45 : ¬ (r.subtype = 4 ∨ r.subtype = 5) := by omega
    simp only [parseData, RawRecord.header, TABLE_DUMP_V2, ht, ParseTableDumpV2, hs1, hs45,
      PEER_INDEX_TABLE, RIB_IPV6_UNICAST, RIB_IPV6_MULTICAST, if_true, if_false,
      Option.some.injEq] at h4
    exact h4.symm
  · intro ht
    simp only [parseData, RawRecord.header, TABLE_DUMP_V2, ht, if_false,
      Option.some.injEq] at h4
    exact h4.symm

theorem Decodes_unsupported (r : RawRecord) (rec : Record) (hne : r.type_ ≠ 13)
    (h : Decodes r rec) :
    rec = { Timestamp := r.timestamp, Type_ := r.type_, SubType := r.subtype,
            Data := TableDump.nil } := by
  obtain ⟨h1, h2, h3, h4⟩ := h
  have h5 : parseData r.header r.body = some TableDump.nil := by
    simp [parseData, RawRecord.header, TABLE_DUMP_V2, hne]
  rw [h5] at h4
  cases rec
  simp only [Option.some.injEq] at h4
  simp_all

/-! ## The RIB header -/

/-- The header fields and the address of the table `ParseRIBIPV6` returns, in terms of
the reads that produce them. -/
theorem ParseRIBIPV6_fields (r : List Byte) :
    ∃ t rest, ParseRIBIPV6 r = some (t, rest) ∧
      t.SequenceNum = beUint ((binaryRead r 5).2.1.take 4) ∧
      t.PrefixLen = beUint ((binaryRead r 5).2.1.drop 4) ∧
      t.Prefix = (binaryRead (binaryRead r 5).2.2
                    (beUint ((binaryRead r 5).2.1.drop 4) / 8)).2.1
                  ++ zeros ((16 + 256 - beUint ((binaryRead r 5).2.1.drop 4) / 8) % 256) := by
  simp only [ParseRIBIPV6]
  obtain ⟨out, hout⟩ := ribEntriesLoop_returns
    (beUint (binaryRead (binaryRead (binaryRead r 5).2.2
      (beUint (List.drop 4 (binaryRead r 5).2.1) / 8)).2.2 2).2.1)
    (binaryRead (binaryRead (binaryRead r 5).2.2
      (beUint (List.drop 4 (binaryRead r 5).2.1) / 8)).2.2 2).2.2 []
  rw [hout]
  exact ⟨_, _, rfl, rfl, rfl, rfl⟩

theorem prefixLen_of_getElem? (body : List Byte) (p : Byte) (hp : body[4]? = some p) :
    beUint ((binaryRead body 5).2.1.drop 4) = p.val := by
  have hlen : 4 < body.length := by
    rcases Nat.lt_or_ge 4 body.length with h | h
    · exact h
    · rw [List.getElem?_eq_none h] at hp; cases hp
  rw [binaryRead_of_le body 5 (by omega)]
  match body, hp, hlen with
  | a :: b :: c :: d :: e :: rest, hp, _ =>
    simp only [List.getElem?_cons_succ, List.getElem?_cons_zero, Option.some.injEq] at hp
    subst hp
    simp [beUint]

/-! ## More on the attribute loop -/

/-- The accumulator of the attribute loop is only ever appended to. -/
theorem attributesLoop_acc (fuel : Nat) :
    ∀ (r : List Byte) (acc : List BGPAttribute),
      attributesLoop fuel r acc
        = (attributesLoop fuel r []).map (fun p => (acc ++ p.1, p.2)) := by
  induction fuel with
  | zero => intro r acc; rfl
  | succ fuel ih =>
    intro r acc
    rcases h : binaryRead r 3 with ⟨e, hb, r1⟩
    rcases e with _ | _ | _
    · simp only [attributesLoop, h]
      rw [ih _ (acc ++ _), ih _ ([] ++ _)]
      simp [Option.map_map, Function.comp_def]
    · simp [attributesLoop, h]
    · simp only [attributesLoop, h]
      rw [ih _ (acc ++ _), ih _ ([] ++ _)]
      simp [Option.map_map, Function.comp_def]

/-- The loop on an empty run stops at once. -/
theorem attributesLoop_nil (fuel : Nat) (acc : List BGPAttribute) :
    attributesLoop (fuel + 1) [] acc = some (acc, []) := by
  simp [attributesLoop, binaryRead_nil 3 (by decide)]

/-- An iteration that finds a full header: three bytes go to the header, the payload
read takes what it can, and one attribute is appended. -/
theorem attributesLoop_full (fuel : Nat) (r : List Byte) (acc : List BGPAttribute)
    (h : 3 ≤ r.length) :
    attributesLoop (fuel + 1) r acc
      = attributesLoop fuel (binaryRead (r.drop 3) ((r.take 3).getD 2 0).val).2.2
          (acc ++ [mkAttribute (r.take 3)
                    (binaryRead (r.drop 3) ((r.take 3).getD 2 0).val).2.1]) := by
  simp only [attributesLoop, binaryRead_of_le r 3 h]

/-- An iteration that finds a remainder of one or two bytes: the remainder is consumed
and an attribute of zero values is appended. -/
theorem attributesLoop_remainder (fuel : Nat) (r : List Byte) (acc : List BGPAttribute)
    (h1 : r ≠ []) (h2 : r.length < 3) :
    attributesLoop (fuel + 1) r acc
      = attributesLoop fuel [] (acc ++ [mkAttribute (zeros 3) []]) := by
  simp only [attributesLoop, binaryRead_short r 3 h2 h1]
  have : ((zeros 3).getD 2 0).val = 0 := by decide
  rw [this, binaryRead_zero]

/-- The number of attributes the loop appends is at most a third of the run, rounded
up, and the run is consumed. -/
theorem attributesLoop_count (fuel : Nat) :
    ∀ (r : List Byte) (acc out : List BGPAttribute) (rest : List Byte),
      attributesLoop fuel r acc = some (out, rest) →
        out.length ≤ acc.length + (r.length + 2) / 3 ∧ rest = [] := by
  induction fuel with
  | zero => intro r acc out rest h; cases h
  | succ fuel ih =>
    intro r acc out rest h
    by_cases hnil : r = []
    · subst hnil
      rw [attributesLoop_nil] at h
      simp only [Option.some.injEq, Prod.mk.injEq] at h
      obtain ⟨h1, h2⟩ := h
      subst h1
      exact ⟨by simp, h2.symm⟩
    · have hpos : 0 < r.length := List.length_pos.mpr hnil
      by_cases h3 : 3 ≤ r.length
      · rw [attributesLoop_full fuel r acc h3] at h
        obtain ⟨hlen, hrest⟩ := ih _ _ _ _ h
        have hle := binaryRead_rest_le (r.drop 3) ((r.take 3).getD 2 0).val
        simp only [List.length_drop] at hle
        simp only [List.length_append, List.length_singleton] at hlen
        refine ⟨?_, hrest⟩
        omega
      · rw [attributesLoop_remainder fuel r acc hnil (by omega)] at h
        obtain ⟨hlen, hrest⟩ := ih _ _ _ _ h
        simp only [List.length_append, List.length_singleton, List.length_nil] at hlen
        refine ⟨?_, hrest⟩
        omega

/-- More fuel does not change a result the loop has reached. -/
theorem attributesLoop_mono (fuel : Nat) :
    ∀ (r : List Byte) (acc : List BGPAttribute) (out : List BGPAttribute × List Byte),
      attributesLoop fuel r acc = some out → attributesLoop (fuel + 1) r acc = some out := by
  induction fuel with
  | zero => intro r acc out h; cases h
  | succ fuel ih =>
    intro r acc out h
    rcases hb : binaryRead r 3 with ⟨e, hb3, r1⟩
    rcases e with _ | _ | _
    · simp only [attributesLoop, hb] at h ⊢
      exact ih _ _ _ h
    · simp only [attributesLoop, hb] at h ⊢
      exact h
    · simp only [attributesLoop, hb] at h ⊢
      exact ih _ _ _ h

theorem attributesLoop_mono_add (k fuel : Nat) (r : List Byte) (acc : List BGPAttribute)
    (out : List BGPAttribute × List Byte) (h : attributesLoop fuel r acc = some out) :
    attributesLoop (fuel + k) r acc = some out := by
  induction k with
  | zero => exact h
  | succ k ih => exact attributesLoop_mono _ _ _ _ ih

/-- Any fuel above the length of the run gives the result of `ParseBGPAttributes`. -/
theorem attributesLoop_eq_Parse (fuel : Nat) (r : List Byte) (h : r.length < fuel) :
    attributesLoop fuel r [] = ParseBGPAttributes r := by
  obtain ⟨out, hout⟩ := ParseBGPAttributes_returns r
  have e : fuel = (r.length + 1) + (fuel - (r.length + 1)) := by omega
  rw [hout, e]
  exact attributesLoop_mono_add _ _ _ _ _ hout

/-- Complete TLVs at the head of a run decode to their attributes, and the rest of
the run is decoded as a run of its own. -/
theorem ParseBGPAttributes_append (front : List TLV) (tail : List Byte)
    (h : ∀ a ∈ front, a.payload.length ≤ 255) :
    ParseBGPAttributes (encodeTLVs front ++ tail)
      = (ParseBGPAttributes tail).map (fun p => (front.map attributeOf ++ p.1, p.2)) := by
  have hl := length_le_encodeTLVs front
  have e : (encodeTLVs front ++ tail).length + 1
      = (tail.length + 1 + ((encodeTLVs front).length - front.length)) + front.length := by
    simp only [List.length_append]; omega
  rw [ParseBGPAttributes, e, attributesLoop_encode front _ tail [] h, attributesLoop_acc,
    attributesLoop_eq_Parse _ tail (by omega)]
  simp

/-- A run that starts with a full header: the first attribute takes the three header
bytes and what the payload read returns, and the run left by the payload read is
decoded as a run of its own. -/
theorem ParseBGPAttributes_header (f ty l : Byte) (rest : List Byte) :
    ParseBGPAttributes (f :: ty :: l :: rest)
      = (ParseBGPAttributes (binaryRead rest l.val).2.2).map
          (fun p => (mkAttribute [f, ty, l] (binaryRead rest l.val).2.1 :: p.1, p.2)) := by
  have hle := binaryRead_rest_le rest l.val
  rw [ParseBGPAttributes]
  simp only [List.length_cons]
  rw [attributesLoop_full _ _ _ (by simp)]
  simp only [List.take, List.drop, List.getD_cons_succ, List.getD_cons_zero, List.nil_append]
  rw [attributesLoop_acc, attributesLoop_eq_Parse _ _ (by omega)]
  simp

theorem binaryRead_cut (r : List Byte) (n : Nat) (h : r.length < n) :
    (binaryRead r n).2 = (zeros n, []) := by
  by_cases hr : r = []
  · subst hr; rw [binaryRead_nil n (by omega)]
  · rw [binaryRead_short r n h hr]

theorem ParseBGPAttributes_nil : ParseBGPAttributes [] = some ([], []) := by decide

theorem encodeTLVs_append (xs ys : List TLV) :
    encodeTLVs (xs ++ ys) = encodeTLVs xs ++ encodeTLVs ys := by
  induction xs with
  | nil => rfl
  | cons a xs ih => simp [encodeTLVs, ih]

set_option maxRecDepth 100000 in
theorem attributeOf_flagByte (o t p e : Bool) (lo : Fin 16) :
    (flagByte o t p e lo).val.testBit 7 = o ∧ (flagByte o t p e lo).val.testBit 6 = t ∧
    (flagByte o t p e lo).val.testBit 5 = p ∧ (flagByte o t p e lo).val.testBit 4 = e := by
  revert o t p e lo
  decide

set_option maxRecDepth 100000 in
theorem testBit_flipExtended (f : Byte) :
    (flipExtended f).val.testBit 7 = f.val.testBit 7 ∧
    (flipExtended f).val.testBit 6 = f.val.testBit 6 ∧
    (flipExtended f).val.testBit 5 = f.val.testBit 5 ∧
    (flipExtended f).val.testBit 4 = !f.val.testBit 4 := by
  revert f
  decide

theorem mkAttribute_flipExtended (f ty l : Byte) (data : List Byte) :
    mkAttribute [flipExtended f, ty, l] data
      = { mkAttribute [f, ty, l] data with
          Extended := !(mkAttribute [f, ty, l] data).Extended } := by
  have h1 := mkAttribute_encode { flag := f, type_ := ty, payload := data } l
  have h2 := mkAttribute_encode { flag := flipExtended f, type_ := ty, payload := data } l
  obtain ⟨h7, h6, h5, h4⟩ := testBit_flipExtended f
  simp only at h1 h2
  rw [h1, h2]
  simp [attributeOf, h7, h6, h5, h4]

/-! ## The peer-index table -/

theorem beUint_encodeU16 (n : Nat) (h : n < 2 ^ 16) : beUint (encodeU16 n) = n := by
  simp only [beUint, encodeU16, byteOf, List.foldl]
  omega

theorem beUint_encodeU32 (n : Nat) (h : n < 2 ^ 32) : beUint (encodeU32 n) = n := by
  simp only [beUint, encodeU32, byteOf, List.foldl]
  omega

/-- The indices the peer loop assigns are consecutive, in order, from its counter. -/
theorem peerEntriesLoop_index (n : Nat) :
    ∀ (i : Nat) (r : List Byte) (acc : List PeerEntry),
      (peerEntriesLoop n i r acc).1.map (fun e => e.PeerIndex)
        = acc.map (fun e => e.PeerIndex) ++ List.range' i n := by
  induction n with
  | zero => intro i r acc; simp [peerEntriesLoop]
  | succ n ih =>
    intro i r acc
    simp only [peerEntriesLoop]
    rw [ih]
    simp [List.range'_succ]

/-- The entries of the table are those of the peer loop, started at index 0 with the
peer count that was read. -/
theorem ParsePeerIndexTable_entries (body : List Byte) :
    ∃ n r, (ParsePeerIndexTable body).1.PeerEntries = (peerEntriesLoop n 0 r []).1 := by
  simp only [ParsePeerIndexTable]
  exact ⟨_, _, rfl⟩

/-- A body with a complete collector id, view name and peer count: the table holds the
collector id, the view name and the entries of the peer loop over what follows. -/
theorem ParsePeerIndexTable_wellformed (c v rest : List Byte) (count : Nat)
    (hc : c.length = 4) (hv : v.length < 2 ^ 16) (hcount : count < 2 ^ 16) :
    ParsePeerIndexTable (c ++ (encodeU16 v.length ++ (v ++ (encodeU16 count ++ rest))))
      = ({ CollectorBGPId := c, ViewName := v,
           PeerEntries := (peerEntriesLoop count 0 rest []).1 },
         (peerEntriesLoop count 0 rest []).2) := by
  have h6 : binaryRead (c ++ (encodeU16 v.length ++ (v ++ (encodeU16 count ++ rest)))) 6
      = (none, c ++ encodeU16 v.length, v ++ (encodeU16 count ++ rest)) := by
    rw [← List.append_assoc]
    exact binaryRead_append _ _ 6 (by simp [hc, encodeU16])
  have ht : List.take 4 (c ++ encodeU16 v.length) = c := by
    rw [List.take_append_of_le_length (by omega)]
    exact List.take_of_length_le (by omega)
  have hd : List.drop 4 (c ++ encodeU16 v.length) = encodeU16 v.length := by
    rw [List.drop_append_of_le_length (by omega)]
    simp [List.drop_eq_nil_of_le, hc]
  have hcnt : binaryRead (encodeU16 count ++ rest) 2 = (none, encodeU16 count, rest) :=
    binaryRead_append _ _ 2 rfl
  unfold ParsePeerIndexTable
  simp only [h6, ht, hd, beUint_encodeU16 _ hv]
  by_cases h0 : v.length > 0
  · simp only [h0, if_true, binaryRead_append v _ v.length rfl, hcnt,
      beUint_encodeU16 _ hcount]
  · have hnil : v = [] := List.length_eq_zero.mp (by omega)
    subst hnil
    simp only [List.length_nil, gt_iff_lt, Nat.lt_irrefl, if_false, List.nil_append, hcnt,
      beUint_encodeU16 _ hcount]

/-! ## The RIB entry loop -/

theorem binaryRead_entryHeader (pi t len : Nat) (rest : List Byte) :
    binaryRead (encodeRIBEntryHeader pi t len ++ rest) 8
      = (none, encodeRIBEntryHeader pi t len, rest) :=
  binaryRead_append _ _ 8 rfl

theorem entryHeader_fields (pi t len : Nat) (h1 : pi < 2 ^ 16) (h2 : t < 2 ^ 32)
    (h3 : len < 2 ^ 16) :
    beUint ((encodeRIBEntryHeader pi t len).take 2) = pi ∧
    beUint (((encodeRIBEntryHeader pi t len).drop 2).take 4) = t ∧
    beUint ((encodeRIBEntryHeader pi t len).drop 6) = len := by
  simp only [encodeRIBEntryHeader, encodeU16, encodeU32, beUint, byteOf, List.take, List.drop,
    List.foldl, List.cons_append, List.nil_append]
  refine ⟨?_, ?_, ?_⟩ <;> omega

/-- One entry header at the head of the body: the attribute buffer gets what the body
still has, up to the declared length, and one entry is appended. -/
theorem ribEntriesLoop_header (n pi t len : Nat) (rest : List Byte) (acc : List RIBEntry)
    (attrs : List BGPAttribute) (r' : List Byte)
    (h1 : pi < 2 ^ 16) (h2 : t < 2 ^ 32) (h3 : len < 2 ^ 16)
    (ha : ParseBGPAttributes (rest.take len) = some (attrs, r')) :
    ribEntriesLoop (n + 1) (encodeRIBEntryHeader pi t len ++ rest) acc
      = ribEntriesLoop n (rest.drop len)
          (acc ++ [{ PeerIndex := pi, OriginatedTime := t, BGPPathAttributes := attrs }]) := by
  obtain ⟨e1, e2, e3⟩ := entryHeader_fields pi t len h1 h2 h3
  simp only [ribEntriesLoop, binaryRead_entryHeader, e1, e2, e3, CopyN, ha]

/-- Once the body is exhausted every further entry is a zero-valued entry without
attributes. -/
theorem ribEntriesLoop_nil (n : Nat) :
    ∀ acc : List RIBEntry,
      ribEntriesLoop n [] acc
        = some (acc ++ List.replicate n
                  { PeerIndex := 0, OriginatedTime := 0, BGPPathAttributes := [] }, []) := by
  induction n with
  | zero => intro acc; simp [ribEntriesLoop]
  | succ n ih =>
    intro acc
    have hz : binaryRead [] 8 = (some GoError.EOF, zeros 8, []) := binaryRead_nil 8 (by decide)
    have h1 : beUint ((zeros 8).take 2) = 0 := by decide
    have h2 : beUint (((zeros 8).drop 2).take 4) = 0 := by decide
    have h3 : beUint ((zeros 8).drop 6) = 0 := by decide
    simp only [ribEntriesLoop, hz, h1, h2, h3, CopyN, List.take_nil, List.drop_nil,
      ParseBGPAttributes_nil]
    rw [ih]
    simp [List.replicate_succ]

theorem ribEntriesLoop_entries (entries : List RawRIBEntry) (h : ∀ e ∈ entries, e.complete) :
    ∃ xs, List.Forall₂ EntryDecodes entries xs ∧
      ∀ (n : Nat) (tail : List Byte) (acc : List RIBEntry),
        ribEntriesLoop (n + entries.length) (encodeRIBEntries entries ++ tail) acc
          = ribEntriesLoop n tail (acc ++ xs) := by
  induction entries with
  | nil => exact ⟨[], List.Forall₂.nil, by simp [encodeRIBEntries]⟩
  | cons e entries ih =>
    obtain ⟨h1, h2, h3⟩ := h e (List.mem_cons_self _ _)
    obtain ⟨xs, hxs, hloop⟩ := ih (fun b hb => h b (List.mem_cons_of_mem _ hb))
    obtain ⟨⟨attrs, r'⟩, ha⟩ := ParseBGPAttributes_returns e.attributes
    refine ⟨{ PeerIndex := e.peerIndex, OriginatedTime := e.originatedTime,
              BGPPathAttributes := attrs } :: xs,
      List.Forall₂.cons ⟨rfl, rfl, by rw [ha]; rfl⟩ hxs, ?_⟩
    intro n tail acc
    have e1 : n + (e :: entries).length = (n + entries.length) + 1 := by simp; omega
    have e2 : encodeRIBEntries (e :: entries) ++ tail
        = encodeRIBEntryHeader e.peerIndex e.originatedTime e.attributes.length
            ++ (e.attributes ++ (encodeRIBEntries entries ++ tail)) := by
      simp [encodeRIBEntries, encodeRIBEntry]
    rw [e1, e2, ribEntriesLoop_header _ _ _ _ _ acc attrs r' h1 h2 h3 (by simpa using ha)]
    simp only [List.drop_left', List.drop_append_of_le_length, le_refl]
    simp [hloop]

/-- The header part of a well-formed RIB body whose prefix length is a multiple of 8:
the table gets the sequence number, the prefix length, the prefix bytes zero-extended,
and the entries of the entry loop over what follows the entry count. -/
theorem ParseRIBIPV6_front (seq : Nat) (p : Byte) (pfx rest : List Byte) (entryCount : Nat)
    (hseq : seq < 2 ^ 32) (hp : p.val ≤ 128) (hpfx : pfx.length = p.val / 8)
    (hcount : entryCount < 2 ^ 16) :
    ParseRIBIPV6 (encodeRIBFront seq p pfx entryCount ++ rest)
      = (ribEntriesLoop entryCount rest []).map
          (fun out => ({ SequenceNum := seq, PrefixLen := p.val,
                         Prefix := pfx ++ zeros (16 - p.val / 8),
                         RIBEntries := out.1 }, out.2)) := by
  have h5 : binaryRead (encodeRIBFront seq p pfx entryCount ++ rest) 5
      = (none, encodeU32 seq ++ [p], pfx ++ (encodeU16 entryCount ++ rest)) := by
    have : encodeRIBFront seq p pfx entryCount ++ rest
        = (encodeU32 seq ++ [p]) ++ (pfx ++ (encodeU16 entryCount ++ rest)) := by
      simp [encodeRIBFront]
    rw [this]
    exact binaryRead_append _ _ 5 rfl
  have ht : beUint ((encodeU32 seq ++ [p]).take 4) = seq := beUint_encodeU32 seq hseq
  have hd : beUint ((encodeU32 seq ++ [p]).drop 4) = p.val := by
    simp [encodeU32, beUint]
  have hpf : binaryRead (pfx ++ (encodeU16 entryCount ++ rest)) (p.val / 8)
      = (none, pfx, encodeU16 entryCount ++ rest) := binaryRead_append _ _ _ hpfx
  have hc : binaryRead (encodeU16 entryCount ++ rest) 2 = (none, encodeU16 entryCount, rest) :=
    binaryRead_append _ _ 2 rfl
  have hmod : (16 + 256 - p.val / 8) % 256 = 16 - p.val / 8 := by omega
  simp only [ParseRIBIPV6, h5, ht, hd, hpf, hc, hmod, beUint_encodeU16 _ hcount]
  cases ribEntriesLoop entryCount rest [] <;> rfl

/-! # The claims -/

/-- C1: for every stream that is the concatenation of n >= 0 complete records (12-byte
big-endian header, then exactly dataLength body bytes, whatever they contain), `Parse`
returns, leaves the stream empty and leaves exactly n records in stream order. The k-th
record has the Timestamp, Type and SubType of the k-th header, and its Data is decoded
from exactly the k-th body: the table `ParsePeerIndexTable` returns on that body for
type 13 and subtype 1, the table `ParseRIBIPV6` returns on that body for type 13 and
subtype 4 or 5, and nil otherwise. A stream that starts with one complete record,
whatever follows it, yields a record sequence whose first element is that record,
decoded in the same way, so a non-empty one. -/
theorem C1_Parse_complete_records (recs : List RawRecord) (old : List Record)
    (h : ∀ r ∈ recs, r.complete) :
    (∃ rs, Parse { File := encodeRecords recs, Records := old }
          = some { File := [], Records := rs } ∧
        rs.length = recs.length ∧ List.Forall₂ DecodesBody recs rs) ∧
    (∀ (r : RawRecord) (tail : List Byte), r.complete →
      ∃ q rec rest, Parse { File := encodeRecord r ++ tail, Records := old } = some q ∧
        q.Records = rec :: rest ∧ DecodesBody r rec) := by
  constructor
  · obtain ⟨rs, hrs, hparse⟩ := Parse_records_tail recs h
    refine ⟨rs, ?_, hrs.length_eq.symm, hrs.imp Decodes_body⟩
    have := hparse [] old
    simp only [List.append_nil] at this
    rw [this]
    exact parseLoop_nil _ rs
  · intro r tail hr
    obtain ⟨rec, hrec, hstep⟩ := parseLoop_step r hr
    obtain ⟨q, hq, _, hpre⟩ := parseLoop_fuel (encodeRecord r ++ tail).length tail [rec]
      (by simp [encodeRecord, encodeHeader_length]; omega)
    obtain ⟨rest, hrest⟩ := hpre
    refine ⟨q, rec, rest, ?_, hrest.symm, Decodes_body r rec hrec⟩
    simp only [Parse]
    rw [hstep]
    exact hq

/-- C1 on a stream of three complete records: a peer-index table with the collector
id 1.2.3.4, a RIB table (subtype 4) with sequence number 7 and no entries, and a record
of type 16. The records come out in order, the first two with the tables their bodies
decode to, the third with nil. -/
theorem C1_Parse_complete_records_witness :
    (∀ r ∈ sampleStream, r.complete) ∧
    ((∃ rs, Parse { File := encodeRecords sampleStream, Records := [] }
          = some { File := [], Records := rs } ∧
        rs.length = sampleStream.length ∧ List.Forall₂ DecodesBody sampleStream rs) ∧
     (∀ (r : RawRecord) (tail : List Byte), r.complete →
      ∃ q rec rest, Parse { File := encodeRecord r ++ tail, Records := [] } = some q ∧
        q.Records = rec :: rest ∧ DecodesBody r rec)) ∧
    Parse { File := encodeRecords sampleStream, Records := [] }
      = some { File := [],
               Records :=
                 [{ Timestamp := 1, Type_ := 13, SubType := 1,
                    Data := TableDump.peerIndexTable
                      { CollectorBGPId := [1, 2, 3, 4], ViewName := [], PeerEntries := [] } },
                  { Timestamp := 2, Type_ := 13, SubType := 4,
                    Data := TableDump.ribTable
                      { SequenceNum := 7, PrefixLen := 0,
                        Prefix := [0, 0, 0, 0, 0, 0, 0, 0, 0, 0, 0, 0, 0, 0, 0, 0],
                        RIBEntries := [] } },
                  { Timestamp := 3, Type_ := 16, SubType := 4, Data := TableDump.nil }] } :=
  ⟨by decide, C1_Parse_complete_records sampleStream [] (by decide), by decide⟩

/-- C2 at the failing input: a peer-index body with an empty view name and two complete
peer entries laid out as the claim says, the first of type 0 (4-byte address 10.0.0.1,
2-byte AS), the second of type 1 (16-byte address, 2-byte AS). The code makes an
address slice of 8 bytes for type 0 (and for type 2, and none at all for a type above
3), so the first PeerIPAddress is the 4 address bytes followed by the AS field and the
first two bytes of the next entry, and the second entry is read from the wrong offset. -/
theorem C2_ParsePeerIndexTable_address_width :
    ParsePeerIndexTable
        [192, 0, 2, 1, 0, 0, 0, 2,
         0, 10, 0, 0, 1, 10, 0, 0, 1, 0xFD, 0xE8,
         1, 10, 0, 0, 2, 0x20, 0x01, 0x0d, 0xb8, 0, 0, 0, 0, 0, 0, 0, 0, 0, 0, 0, 2, 0xFD, 0xE9]
      = ({ CollectorBGPId := [192, 0, 2, 1], ViewName := [],
           PeerEntries :=
             [{ PeerIndex := 0, PeerType := 0, PeerBGPId := [10, 0, 0, 1],
                PeerIPAddress := [10, 0, 0, 1, 0xFD, 0xE8, 1, 10], PeerAS := 0 },
              { PeerIndex := 1, PeerType := 2, PeerBGPId := [0x20, 0x01, 0x0d, 0xb8],
                PeerIPAddress := [0, 0, 0, 0, 0, 0, 0, 0], PeerAS := 0 }] },
         [0xFD, 0xE9]) ∧
    peerFieldLengths 0 = (8, 2) ∧ peerFieldLengths 2 = (8, 4) ∧
    ∀ t, 4 ≤ t → peerFieldLengths t = (0, 0) := by
  refine ⟨by decide, rfl, rfl, ?_⟩
  intro t ht
  match t, ht with
  | t + 4, _ => rfl

set_option maxRecDepth 100000 in
/-- C3 at the failing input: a RIB body with sequence number 7, prefix length 9, the
two prefix bytes `AA 01` that ceil(9/8) = 2 asks for, and an entry count of 0. The code
reads floor(9/8) = 1 prefix byte, so Prefix is `AA` zero-extended, without the `01`,
and the entry count is read one byte early, from `01 00`, as 256. -/
theorem C3_ParseRIBIPV6_prefix_bytes :
    (ParseRIBIPV6 [0, 0, 0, 7, 9, 0xAA, 0x01, 0, 0]).map
        (fun x => (x.1.SequenceNum, x.1.PrefixLen, x.1.Prefix, x.1.RIBEntries.length, x.2))
      = some (7, 9, [0xAA, 0, 0, 0, 0, 0, 0, 0, 0, 0, 0, 0, 0, 0, 0, 0], 256, []) := by
  decide

/-- C4: for every list of attributes, each with a flag byte, a type byte and a payload
of at most 255 bytes, `ParseBGPAttributes` applied to the concatenation of their TLVs
(flag, type, one length byte, payload) returns exactly that list in the same order,
each result with the type, the payload as Data and the four flag bits 7, 6, 5, 4 of its
flag byte, and leaves the reader empty; the empty run yields the empty sequence. -/
theorem C4_ParseBGPAttributes_roundtrip (as : List TLV)
    (h : ∀ a ∈ as, a.payload.length ≤ 255) :
    ParseBGPAttributes (encodeTLVs as) = some (as.map attributeOf, []) ∧
      ParseBGPAttributes [] = some ([], []) :=
  ⟨ParseBGPAttributes_encode as h, by decide⟩

theorem C4_ParseBGPAttributes_roundtrip_witness :
    (∀ a ∈ sampleTLVs, a.payload.length ≤ 255) ∧
    (ParseBGPAttributes (encodeTLVs sampleTLVs) = some (sampleTLVs.map attributeOf, []) ∧
      ParseBGPAttributes [] = some ([], [])) :=
  ⟨by decide, C4_ParseBGPAttributes_roundtrip sampleTLVs (by decide)⟩

/-- C5 (what the code does): for a stream of n complete records followed by k trailing
bytes with 1 <= k < 12, `Parse` does not stop at the partial header: it returns the n
records followed by one more record whose Timestamp, Type and SubType are zero and
whose Data is nil. -/
theorem C5_Parse_trailing_bytes (recs : List RawRecord) (tail : List Byte)
    (old : List Record) (h : ∀ r ∈ recs, r.complete) (h1 : tail ≠ [])
    (h2 : tail.length < 12) :
    ∃ rs, List.Forall₂ Decodes recs rs ∧
      Parse { File := encodeRecords recs ++ tail, Records := old }
        = some { File := [],
                 Records := rs ++ [{ Timestamp := 0, Type_ := 0, SubType := 0,
                                     Data := TableDump.nil }] } := by
  obtain ⟨rs, hrs, hparse⟩ := Parse_records_tail recs h
  refine ⟨rs, hrs, ?_⟩
  have hpos : 0 < tail.length := List.length_pos.mpr h1
  have e : tail.length + ((encodeRecords recs).length - recs.length) + 1
      = (tail.length + ((encodeRecords recs).length - recs.length) - 1 + 1) + 1 := by omega
  rw [hparse tail old, e, parseLoop_short_header _ tail rs h1 h2, parseLoop_nil]

/-- C5 at the failing input: the one-byte stream `[0]` (no complete record, one
trailing byte) yields one record, not none. -/
theorem C5_Parse_trailing_bytes_witness :
    ([0] : List Byte) ≠ [] ∧ ([0] : List Byte).length < 12 ∧
      Parse { File := [0], Records := [] }
        = some { File := [],
                 Records := [{ Timestamp := 0, Type_ := 0, SubType := 0,
                               Data := TableDump.nil }] } := by
  obtain ⟨rs, hrs, h⟩ :=
    C5_Parse_trailing_bytes [] [0] [] (by decide) (by decide) (by decide)
  cases hrs
  exact ⟨by decide, by decide, h⟩

/-- C6 counterexample: a header declaring dataLength = 20 with only 10 bytes after it.
`Parse` returns normally with no record and the stream consumed, exactly as it does on
the empty stream: no failure reaches the caller. -/
theorem C6_counterexample :
    Parse { File := [0, 0, 0, 0, 0, 13, 0, 1, 0, 0, 0, 20, 1, 2, 3, 4, 5, 6, 7, 8, 9, 10],
            Records := [] }
        = some { File := [], Records := [] } ∧
      Parse { File := [], Records := [] } = some { File := [], Records := [] } := by
  decide

/-- C6 as amended: for every stream in which, after n complete records, a complete
header declares a dataLength greater than the number of bytes remaining after it,
`Parse` returns normally and raises no error: it stops at that header with the stream
consumed, the records are exactly those of the n complete records, as for the stream
cut before that header, and no record is built from the short body. -/
theorem C6_Parse_short_body (recs : List RawRecord) (h : header) (rest : List Byte)
    (old : List Record) (hc : ∀ r ∈ recs, r.complete) (hf : h.fits)
    (hshort : rest.length < h.DataLength) :
    ∃ rs, List.Forall₂ Decodes recs rs ∧
      Parse { File := encodeRecords recs ++ (encodeHeader h ++ rest), Records := old }
        = some { File := [], Records := rs } ∧
      Parse { File := encodeRecords recs, Records := old }
        = some { File := [], Records := rs } := by
  obtain ⟨rs, hrs, hparse⟩ := Parse_records_tail recs hc
  obtain ⟨h1, h2, h3, h4⟩ := hf
  refine ⟨rs, hrs, ?_, ?_⟩
  · rw [hparse]
    apply parseLoop_short_body
    · simp [encodeHeader_length]
    · have e1 : List.take 12 (encodeHeader h ++ rest) = encodeHeader h := by
        rw [List.take_append_of_le_length (by simp [encodeHeader_length])]
        exact List.take_of_length_le (by simp [encodeHeader_length])
      have e2 : List.drop 12 (encodeHeader h ++ rest) = rest := by
        rw [List.drop_append_of_le_length (by simp [encodeHeader_length])]
        simp [List.drop_eq_nil_of_le, encodeHeader_length]
      rw [e1, e2, decodeHeader_encodeHeader h h1 h2 h3 h4]
      exact hshort
  · have := hparse [] old
    simp only [List.append_nil] at this
    rw [this]
    exact parseLoop_nil _ rs

theorem C6_Parse_short_body_witness :
    (∀ r ∈ sampleRecords, r.complete) ∧
    ({ Timestamp := 0, Type_ := 13, Subtype := 1, DataLength := 20 } : header).fits ∧
    ([1, 2, 3, 4, 5, 6, 7, 8, 9, 10] : List Byte).length
      < ({ Timestamp := 0, Type_ := 13, Subtype := 1, DataLength := 20 } : header).DataLength ∧
    ∃ rs, List.Forall₂ Decodes sampleRecords rs ∧
      Parse { File := encodeRecords sampleRecords ++
                (encodeHeader { Timestamp := 0, Type_ := 13, Subtype := 1, DataLength := 20 }
                  ++ [1, 2, 3, 4, 5, 6, 7, 8, 9, 10]), Records := [] }
        = some { File := [], Records := rs } ∧
      Parse { File := encodeRecords sampleRecords, Records := [] }
        = some { File := [], Records := rs } :=
  ⟨by decide, by decide, by decide,
   C6_Parse_short_body sampleRecords _ _ [] (by decide) (by decide) (by decide)⟩

/-- C7 counterexample: two complete records of type 16 that differ only in their body
bytes decode to the same record, whose Data is nil: Data does not carry the raw body
bytes. -/
theorem C7_counterexample :
    Parse { File := [0, 0, 0, 5, 0, 16, 0, 4, 0, 0, 0, 2, 0xDE, 0xAD], Records := [] }
        = some { File := [], Records := [{ Timestamp := 5, Type_ := 16, SubType := 4,
                                           Data := TableDump.nil }] } ∧
      Parse { File := [0, 0, 0, 5, 0, 16, 0, 4, 0, 0, 0, 2, 0xBE, 0xEF], Records := [] }
        = some { File := [], Records := [{ Timestamp := 5, Type_ := 16, SubType := 4,
                                           Data := TableDump.nil }] } := by
  decide

/-- C7 as amended: for every complete record whose header type is not 13, standing
anywhere in a stream of complete records, `Parse` yields a record (never a decode
failure) at its position whose Timestamp, Type and SubType equal the header's and whose
Data is nil; the dataLength body bytes are consumed and not carried by the record. -/
theorem C7_Parse_unsupported_type (front back : List RawRecord) (r : RawRecord)
    (old : List Record) (hfront : ∀ x ∈ front, x.complete) (hback : ∀ x ∈ back, x.complete)
    (hr : r.complete) (hne : r.type_ ≠ 13) :
    ∃ rsFront rsBack, List.Forall₂ Decodes front rsFront ∧ List.Forall₂ Decodes back rsBack ∧
      Parse { File := encodeRecords front ++ (encodeRecord r ++ encodeRecords back),
              Records := old }
        = some { File := [],
                 Records := rsFront ++ { Timestamp := r.timestamp, Type_ := r.type_,
                                         SubType := r.subtype, Data := TableDump.nil }
                              :: rsBack } := by
  obtain ⟨rsFront, hFront, hparse⟩ := Parse_records_tail front hfront
  obtain ⟨rec, hrec, hstep⟩ := parseLoop_step r hr
  obtain ⟨rsBack, hBack, hloop⟩ := parseLoop_records back hback
  refine ⟨rsFront, rsBack, hFront, hBack, ?_⟩
  have hrec2 := Decodes_unsupported r rec hne hrec
  have hl := length_le_encodeRecords back
  have hlr : (encodeRecord r).length = 12 + r.body.length := by
    simp [encodeRecord, encodeHeader_length]
  rw [hparse, hstep]
  have e : (encodeRecord r ++ encodeRecords back).length
        + ((encodeRecords front).length - front.length)
      = ((encodeRecord r ++ encodeRecords back).length
          + ((encodeRecords front).length - front.length) - back.length - 1 + 1)
        + back.length := by
    simp only [List.length_append]; omega
  have hloop2 := hloop ((encodeRecord r ++ encodeRecords back).length
          + ((encodeRecords front).length - front.length) - back.length - 1 + 1) []
          (rsFront ++ [rec])
  simp only [List.append_nil] at hloop2
  rw [e, hloop2, parseLoop_nil, hrec2]
  simp

theorem C7_Parse_unsupported_type_witness :
    (∀ x ∈ sampleRecords, x.complete) ∧
    ({ timestamp := 5, type_ := 16, subtype := 4, body := [0xDE, 0xAD] } : RawRecord).complete ∧
    ({ timestamp := 5, type_ := 16, subtype := 4, body := [0xDE, 0xAD] } : RawRecord).type_ ≠ 13 ∧
    ∃ rsFront rsBack, List.Forall₂ Decodes sampleRecords rsFront ∧
      List.Forall₂ Decodes sampleRecords rsBack ∧
      Parse { File := encodeRecords sampleRecords ++
                (encodeRecord { timestamp := 5, type_ := 16, subtype := 4, body := [0xDE, 0xAD] }
                  ++ encodeRecords sampleRecords),
              Records := [] }
        = some { File := [],
                 Records := rsFront ++ { Timestamp := 5, Type_ := 16, SubType := 4,
                                         Data := TableDump.nil } :: rsBack } :=
  ⟨by decide, by decide, by decide,
   C7_Parse_unsupported_type sampleRecords sampleRecords
     { timestamp := 5, type_ := 16, subtype := 4, body := [0xDE, 0xAD] } []
     (by decide) (by decide) (by decide) (by decide)⟩

/-- C8: for every body and every subtype s, `ParseTableDumpV2 body s` is the result of
`ParsePeerIndexTable body` when s = 1, the result of `ParseRIBIPV6 body` (which always
returns) when s = 4 or s = 5, and for every other s the nil result with the body left
untouched, in particular for the enumerated subtypes 2, 3 and 6. -/
theorem C8_ParseTableDumpV2_dispatch (body : List Byte) (s : Nat) :
    (s = 1 → ParseTableDumpV2 body s
        = some (TableDump.peerIndexTable (ParsePeerIndexTable body).1,
                (ParsePeerIndexTable body).2)) ∧
    (s = 4 ∨ s = 5 → ∃ t rest, ParseRIBIPV6 body = some (t, rest) ∧
        ParseTableDumpV2 body s = some (TableDump.ribTable t, rest)) ∧
    (s ≠ 1 → s ≠ 4 → s ≠ 5 → ParseTableDumpV2 body s = some (TableDump.nil, body)) ∧
    ParseTableDumpV2 body RIB_IPV4_UNICAST = some (TableDump.nil, body) ∧
    ParseTableDumpV2 body RIB_IPV4_MULTICAST = some (TableDump.nil, body) ∧
    ParseTableDumpV2 body RIB_GENERIC = some (TableDump.nil, body) := by
  refine ⟨?_, ?_, ?_, ?_, ?_, ?_⟩
  · intro hs
    simp [ParseTableDumpV2, hs, PEER_INDEX_TABLE]
  · intro hs
    obtain ⟨⟨t, rest⟩, hout⟩ := ParseRIBIPV6_returns body
    refine ⟨t, rest, hout, ?_⟩
    have h1 : s ≠ 1 := by omega
    simp [ParseTableDumpV2, h1, hs, hout, PEER_INDEX_TABLE, RIB_IPV6_UNICAST,
      RIB_IPV6_MULTICAST]
  · intro h1 h4 h5
    simp [ParseTableDumpV2, h1, h4, h5, PEER_INDEX_TABLE, RIB_IPV6_UNICAST,
      RIB_IPV6_MULTICAST]
  · simp [ParseTableDumpV2, RIB_IPV4_UNICAST, PEER_INDEX_TABLE, RIB_IPV6_UNICAST,
      RIB_IPV6_MULTICAST]
  · simp [ParseTableDumpV2, RIB_IPV4_MULTICAST, PEER_INDEX_TABLE, RIB_IPV6_UNICAST,
      RIB_IPV6_MULTICAST]
  · simp [ParseTableDumpV2, RIB_GENERIC, PEER_INDEX_TABLE, RIB_IPV6_UNICAST,
      RIB_IPV6_MULTICAST]

/-- C9 counterexample: the three-byte run `[0, 0, 5]` is a TLV header declaring five
payload bytes that are not there. One attribute is returned, with five zero bytes as
Data, and the sum of `3 + len(Data)` is 8, not 3. -/
theorem C9_counterexample :
    ∃ as rest, ParseBGPAttributes [0, 0, 5] = some (as, rest) ∧
      attributesSize as ≠ ([0, 0, 5] : List Byte).length :=
  ⟨[{ Optional := false, Transitive := false, Partial := false, Extended := false,
      Type_ := 0, Data := [0, 0, 0, 0, 0] }], [], by decide, by decide⟩

/-- C9 as amended: for every attribute byte run that is a concatenation of complete
TLVs (flag, type, one length byte, payload of that length), the sum over all returned
attributes of `3 + len(Data)` equals the length of the run exactly. -/
theorem C9_attributes_size (as : List TLV) (h : ∀ a ∈ as, a.payload.length ≤ 255) :
    ∃ attrs rest, ParseBGPAttributes (encodeTLVs as) = some (attrs, rest) ∧
      attributesSize attrs = (encodeTLVs as).length :=
  ⟨as.map attributeOf, [], ParseBGPAttributes_encode as h, (encodeTLVs_length as).symm⟩

theorem C9_attributes_size_witness :
    (∀ a ∈ sampleTLVs, a.payload.length ≤ 255) ∧
    ∃ attrs rest, ParseBGPAttributes (encodeTLVs sampleTLVs) = some (attrs, rest) ∧
      attributesSize attrs = (encodeTLVs sampleTLVs).length :=
  ⟨by decide, C9_attributes_size sampleTLVs (by decide)⟩

/-- C10: for every RIB body whose prefix-length byte p (the fifth byte) is at most 128,
`ParseRIBIPV6` returns a table whose PrefixLen is p and whose Prefix has exactly 16
bytes, every byte at index >= ceil(p/8) being zero; the body after the prefix-length
byte is arbitrary, so this holds also when it is too short to hold the prefix bytes. -/
theorem C10_ParseRIBIPV6_prefix_padding (body : List Byte) (p : Byte)
    (hp : body[4]? = some p) (h128 : p.val ≤ 128) :
    ∃ t rest, ParseRIBIPV6 body = some (t, rest) ∧ t.PrefixLen = p.val ∧
      t.Prefix.length = 16 ∧
      ∀ i, (p.val + 7) / 8 ≤ i → i < 16 → t.Prefix[i]? = some 0 := by
  obtain ⟨t, rest, ht, _, hlen, hpfx⟩ := ParseRIBIPV6_fields body
  have hpl := prefixLen_of_getElem? body p hp
  rw [hpl] at hlen hpfx
  have hmod : (16 + 256 - p.val / 8) % 256 = 16 - p.val / 8 := by omega
  rw [hmod] at hpfx
  have hdl := binaryRead_data_length (binaryRead body 5).2.2 (p.val / 8)
  refine ⟨t, rest, ht, hlen, ?_, ?_⟩
  · rw [hpfx, List.length_append, hdl]
    simp only [zeros, List.length_replicate]
    omega
  · intro i hi hi16
    rw [hpfx, List.getElem?_append_right (by rw [hdl]; omega), hdl]
    simp only [zeros]
    rw [List.getElem?_replicate]
    have : i - p.val / 8 < 16 - p.val / 8 := by omega
    simp [this]

theorem C10_ParseRIBIPV6_prefix_padding_witness :
    ([0, 0, 0, 7, 9, 0xAA] : List Byte)[4]? = some 9 ∧ (9 : Byte).val ≤ 128 ∧
    ∃ t rest, ParseRIBIPV6 [0, 0, 0, 7, 9, 0xAA] = some (t, rest) ∧ t.PrefixLen = (9 : Byte).val ∧
      t.Prefix.length = 16 ∧
      ∀ i, ((9 : Byte).val + 7) / 8 ≤ i → i < 16 → t.Prefix[i]? = some 0 :=
  ⟨by decide, by decide,
   C10_ParseRIBIPV6_prefix_padding [0, 0, 0, 7, 9, 0xAA] 9 (by decide) (by decide)⟩

/-- C11 (what the code does): for every RIB body whose prefix-length byte p is 136 or
more, `prefixBytes = p / 8` exceeds 16, the unsigned 8-bit `16 - prefixBytes` wraps
around to `272 - prefixBytes`, and the Prefix that `ParseRIBIPV6` returns has 272
bytes, not 16. -/
theorem C11_ParseRIBIPV6_prefix_length (body : List Byte) (p : Byte)
    (hp : body[4]? = some p) (h136 : 136 ≤ p.val) :
    ∃ t rest, ParseRIBIPV6 body = some (t, rest) ∧ t.PrefixLen = p.val ∧
      t.Prefix.length = 272 := by
  obtain ⟨t, rest, ht, _, hlen, hpfx⟩ := ParseRIBIPV6_fields body
  have hpl := prefixLen_of_getElem? body p hp
  rw [hpl] at hlen hpfx
  have hlt := p.isLt
  have hmod : (16 + 256 - p.val / 8) % 256 = 272 - p.val / 8 := by omega
  rw [hmod] at hpfx
  have hdl := binaryRead_data_length (binaryRead body 5).2.2 (p.val / 8)
  refine ⟨t, rest, ht, hlen, ?_⟩
  rw [hpfx, List.length_append, hdl]
  simp only [zeros, List.length_replicate]
  omega

/-- C11 at the failing input: the five-byte RIB body `00 00 00 00 FF` (prefix length
255) yields a Prefix of 272 bytes. -/
theorem C11_ParseRIBIPV6_prefix_length_witness :
    ([0, 0, 0, 0, 255] : List Byte)[4]? = some 255 ∧ 136 ≤ (255 : Byte).val ∧
    ∃ t rest, ParseRIBIPV6 [0, 0, 0, 0, 255] = some (t, rest) ∧ t.PrefixLen = (255 : Byte).val ∧
      t.Prefix.length = 272 :=
  ⟨by decide, by decide,
   C11_ParseRIBIPV6_prefix_length [0, 0, 0, 0, 255] 255 (by decide) (by decide)⟩

/-- C12: for every peer-index body (4-byte collector id, 2-byte view-name length, view
name, 2-byte big-endian peer count, then whatever follows), the PeerEntries returned by
`ParsePeerIndexTable` have length equal to the peer count and the entry at position i
has PeerIndex = i: the indices are exactly 0..peerCount-1 in order. For any byte run at
all the indices returned are 0..n-1 in order for some n. -/
theorem C12_ParsePeerIndexTable_indices (c v rest : List Byte) (count : Nat)
    (hc : c.length = 4) (hv : v.length < 2 ^ 16) (hcount : count < 2 ^ 16) :
    ((ParsePeerIndexTable
        (c ++ (encodeU16 v.length ++ (v ++ (encodeU16 count ++ rest))))).1.PeerEntries.length
        = count ∧
      (ParsePeerIndexTable
        (c ++ (encodeU16 v.length ++ (v ++ (encodeU16 count ++ rest))))).1.PeerEntries.map
          (fun e => e.PeerIndex) = List.range count ∧
      ∀ i, i < count →
        ((ParsePeerIndexTable
          (c ++ (encodeU16 v.length ++ (v ++ (encodeU16 count ++ rest))))).1.PeerEntries[i]?).map
            (fun e => e.PeerIndex) = some i) ∧
    (∀ body : List Byte, ∃ n,
      (ParsePeerIndexTable body).1.PeerEntries.map (fun e => e.PeerIndex) = List.range n) := by
  have hmap : (ParsePeerIndexTable
        (c ++ (encodeU16 v.length ++ (v ++ (encodeU16 count ++ rest))))).1.PeerEntries.map
          (fun e => e.PeerIndex) = List.range count := by
    rw [ParsePeerIndexTable_wellformed c v rest count hc hv hcount]
    simp only [peerEntriesLoop_index, List.map_nil, List.nil_append, List.range_eq_range']
  refine ⟨⟨?_, hmap, ?_⟩, ?_⟩
  · have := congrArg List.length hmap
    simpa using this
  · intro i hi
    rw [← List.getElem?_map, hmap, List.getElem?_range hi]
  · intro body
    obtain ⟨n, r, h⟩ := ParsePeerIndexTable_entries body
    refine ⟨n, ?_⟩
    rw [h, peerEntriesLoop_index]
    simp [List.range_eq_range']

theorem C12_ParsePeerIndexTable_indices_witness :
    ([192, 0, 2, 1] : List Byte).length = 4 ∧ ([97, 98] : List Byte).length < 2 ^ 16 ∧
    3 < 2 ^ 16 ∧
    (ParsePeerIndexTable samplePeerBody).1.PeerEntries.length = 3 ∧
    (ParsePeerIndexTable samplePeerBody).1.PeerEntries.map (fun e => e.PeerIndex)
      = List.range 3 :=
  ⟨by decide, by decide, by decide,
   (C12_ParsePeerIndexTable_indices [192, 0, 2, 1] [97, 98]
      [1, 10, 0, 0, 2, 0x20, 0x01, 0x0d, 0xb8, 0, 0, 0, 0, 0, 0, 0, 0, 0, 0, 0, 2, 0xFD, 0xE9]
      3 (by decide) (by decide) (by decide)).1.1,
   (C12_ParsePeerIndexTable_indices [192, 0, 2, 1] [97, 98]
      [1, 10, 0, 0, 2, 0x20, 0x01, 0x0d, 0xb8, 0, 0, 0, 0, 0, 0, 0, 0, 0, 0, 0, 2, 0xFD, 0xE9]
      3 (by decide) (by decide) (by decide)).1.2.1⟩

/-- C13: for every well-formed RIB body whose prefix length p <= 128 is a multiple of 8
(sequence number, p, p/8 prefix bytes, entry count, then that many complete entries),
`ParseRIBIPV6` returns SequenceNum and PrefixLen equal to the fields of the first five
bytes and exactly entryCount entries in order, the i-th with PeerIndex and
OriginatedTime from its 2-byte and 4-byte big-endian fields and with BGPPathAttributes
equal to what `ParseBGPAttributes` returns on exactly the attribute-length bytes that
follow its 8-byte header; the body is consumed. -/
theorem C13_ParseRIBIPV6_wellformed (seq : Nat) (p : Byte) (pfx : List Byte)
    (entries : List RawRIBEntry) (hseq : seq < 2 ^ 32) (hp : p.val ≤ 128)
    (_hp8 : p.val % 8 = 0) (hpfx : pfx.length = p.val / 8)
    (hcount : entries.length < 2 ^ 16) (hentries : ∀ e ∈ entries, e.complete) :
    ∃ t, ParseRIBIPV6 (encodeRIBFront seq p pfx entries.length ++ encodeRIBEntries entries)
          = some (t, []) ∧
      t.SequenceNum = seq ∧ t.PrefixLen = p.val ∧ t.RIBEntries.length = entries.length ∧
      List.Forall₂ EntryDecodes entries t.RIBEntries := by
  obtain ⟨xs, hxs, hloop⟩ := ribEntriesLoop_entries entries hentries
  have h := hloop 0 [] []
  simp only [Nat.zero_add, List.append_nil, List.nil_append] at h
  refine ⟨{ SequenceNum := seq, PrefixLen := p.val, Prefix := pfx ++ zeros (16 - p.val / 8),
            RIBEntries := xs }, ?_, rfl, rfl, hxs.length_eq.symm, hxs⟩
  rw [ParseRIBIPV6_front seq p pfx _ entries.length hseq hp hpfx hcount, h]
  rfl

theorem C13_ParseRIBIPV6_wellformed_witness :
    7 < 2 ^ 32 ∧ (16 : Byte).val ≤ 128 ∧ (16 : Byte).val % 8 = 0 ∧
    ([0x20, 0x01] : List Byte).length = (16 : Byte).val / 8 ∧
    sampleRIBEntries.length < 2 ^ 16 ∧ (∀ e ∈ sampleRIBEntries, e.complete) ∧
    ∃ t, ParseRIBIPV6 (encodeRIBFront 7 16 [0x20, 0x01] sampleRIBEntries.length
                        ++ encodeRIBEntries sampleRIBEntries)
          = some (t, []) ∧
      t.SequenceNum = 7 ∧ t.PrefixLen = (16 : Byte).val ∧
      t.RIBEntries.length = sampleRIBEntries.length ∧
      List.Forall₂ EntryDecodes sampleRIBEntries t.RIBEntries :=
  ⟨by decide, by decide, by decide, by decide, by decide, by decide,
   C13_ParseRIBIPV6_wellformed 7 16 [0x20, 0x01] sampleRIBEntries (by decide) (by decide)
     (by decide) (by decide) (by decide) (by decide)⟩

/-- C14 counterexample: a RIB body with one entry (peer index 3, time 9) that declares
10 attribute bytes while 3 remain. `ParseRIBIPV6` returns normally, with the entry and
the attribute decoded from the 3 bytes that are there. -/
theorem C14_counterexample :
    ParseRIBIPV6 [0, 0, 0, 7, 0, 0, 1, 0, 3, 0, 0, 0, 9, 0, 10, 0x40, 1, 0]
      = some ({ SequenceNum := 7, PrefixLen := 0,
                Prefix := [0, 0, 0, 0, 0, 0, 0, 0, 0, 0, 0, 0, 0, 0, 0, 0],
                RIBEntries :=
                  [{ PeerIndex := 3, OriginatedTime := 9,
                     BGPPathAttributes :=
                       [{ Optional := false, Transitive := true, Partial := false,
                          Extended := false, Type_ := 1, Data := [] }] }] }, []) := by
  decide

/-- C14 as amended: for every RIB body (prefix length p <= 128 a multiple of 8) in
which, after some complete entries, an entry declares an attribute length greater than
the number of bytes remaining in the body, `ParseRIBIPV6` reports no error: it returns
normally, the entry at that position has its PeerIndex and OriginatedTime and the
attributes `ParseBGPAttributes` returns on the shorter (possibly empty) run that
remains, and every entry counted after it has zero values and no attributes. -/
theorem C14_ParseRIBIPV6_short_attributes (seq : Nat) (p : Byte) (pfx : List Byte)
    (entries : List RawRIBEntry) (pi t len k : Nat) (rest : List Byte)
    (hseq : seq < 2 ^ 32) (hp : p.val ≤ 128) (_hp8 : p.val % 8 = 0)
    (hpfx : pfx.length = p.val / 8) (hentries : ∀ e ∈ entries, e.complete)
    (hcount : entries.length + 1 + k < 2 ^ 16)
    (hpi : pi < 2 ^ 16) (ht : t < 2 ^ 32) (hlen : len < 2 ^ 16) (hshort : rest.length < len) :
    ∃ xs attrs, List.Forall₂ EntryDecodes entries xs ∧
      (ParseBGPAttributes rest).map Prod.fst = some attrs ∧
      ParseRIBIPV6 (encodeRIBFront seq p pfx (entries.length + 1 + k)
                      ++ (encodeRIBEntries entries
                          ++ (encodeRIBEntryHeader pi t len ++ rest)))
        = some ({ SequenceNum := seq, PrefixLen := p.val,
                  Prefix := pfx ++ zeros (16 - p.val / 8),
                  RIBEntries := xs ++ { PeerIndex := pi, OriginatedTime := t,
                                        BGPPathAttributes := attrs }
                    :: List.replicate k { PeerIndex := 0, OriginatedTime := 0,
                                          BGPPathAttributes := [] } }, []) := by
  obtain ⟨xs, hxs, hloop⟩ := ribEntriesLoop_entries entries hentries
  obtain ⟨⟨attrs, r'⟩, ha⟩ := ParseBGPAttributes_returns rest
  refine ⟨xs, attrs, hxs, by rw [ha]; rfl, ?_⟩
  have e : entries.length + 1 + k = (k + 1) + entries.length := by omega
  have htake : rest.take len = rest := List.take_of_length_le (by omega)
  have hdrop : rest.drop len = [] := List.drop_eq_nil_of_le (by omega)
  rw [ParseRIBIPV6_front seq p pfx _ _ hseq hp hpfx hcount, e, hloop,
    ribEntriesLoop_header k pi t len rest _ attrs r' hpi ht hlen (by rw [htake]; exact ha),
    hdrop, ribEntriesLoop_nil]
  simp

theorem C14_ParseRIBIPV6_short_attributes_witness :
    7 < 2 ^ 32 ∧ (0 : Byte).val ≤ 128 ∧ (0 : Byte).val % 8 = 0 ∧
    ([] : List Byte).length = (0 : Byte).val / 8 ∧ (∀ e ∈ sampleRIBEntries, e.complete) ∧
    sampleRIBEntries.length + 1 + 2 < 2 ^ 16 ∧ 3 < 2 ^ 16 ∧ 9 < 2 ^ 32 ∧ 10 < 2 ^ 16 ∧
    ([0x40, 1, 0] : List Byte).length < 10 ∧
    ∃ xs attrs, List.Forall₂ EntryDecodes sampleRIBEntries xs ∧
      (ParseBGPAttributes [0x40, 1, 0]).map Prod.fst = some attrs ∧
      ParseRIBIPV6 (encodeRIBFront 7 0 [] (sampleRIBEntries.length + 1 + 2)
                      ++ (encodeRIBEntries sampleRIBEntries
                          ++ (encodeRIBEntryHeader 3 9 10 ++ [0x40, 1, 0])))
        = some ({ SequenceNum := 7, PrefixLen := (0 : Byte).val,
                  Prefix := [] ++ zeros (16 - (0 : Byte).val / 8),
                  RIBEntries := xs ++ { PeerIndex := 3, OriginatedTime := 9,
                                        BGPPathAttributes := attrs }
                    :: List.replicate 2 { PeerIndex := 0, OriginatedTime := 0,
                                          BGPPathAttributes := [] } }, []) :=
  ⟨by decide, by decide, by decide, by decide, by decide, by decide, by decide, by decide,
   by decide, by decide,
   C14_ParseRIBIPV6_short_attributes 7 0 [] sampleRIBEntries 3 9 10 2 [0x40, 1, 0]
     (by decide) (by decide) (by decide) (by decide) (by decide) (by decide) (by decide)
     (by decide) (by decide) (by decide)⟩

/-- C15 counterexample: the run `40 01 05 09` is a TLV header declaring five payload
bytes followed by a single byte. `ParseBGPAttributes` returns normally, with one
attribute whose Data is five zero bytes. -/
theorem C15_counterexample :
    ParseBGPAttributes [0x40, 1, 5, 9]
      = some ([{ Optional := false, Transitive := true, Partial := false, Extended := false,
                 Type_ := 1, Data := [0, 0, 0, 0, 0] }], []) := by
  decide

/-- C15 as amended: for every attribute byte run that ends inside the payload of a TLV
(complete TLVs, then a complete 3-byte header whose length byte declares more payload
bytes than remain), `ParseBGPAttributes` does not fail: it returns normally the
attributes of the complete TLVs followed by one attribute with the flags and type of
the cut TLV whose Data has the declared length and holds zero bytes; a run that ends
exactly on a TLV boundary terminates the sequence normally. -/
theorem C15_ParseBGPAttributes_cut_payload (front : List TLV) (f ty l : Byte)
    (rest : List Byte) (h : ∀ a ∈ front, a.payload.length ≤ 255)
    (hcut : rest.length < l.val) :
    ParseBGPAttributes (encodeTLVs front ++ f :: ty :: l :: rest)
        = some (front.map attributeOf
                  ++ [attributeOf { flag := f, type_ := ty, payload := zeros l.val }], []) ∧
      ParseBGPAttributes (encodeTLVs front) = some (front.map attributeOf, []) := by
  refine ⟨?_, ParseBGPAttributes_encode front h⟩
  rw [ParseBGPAttributes_append front _ h, ParseBGPAttributes_header, binaryRead_cut rest _ hcut,
    ParseBGPAttributes_nil]
  have := mkAttribute_encode { flag := f, type_ := ty, payload := zeros l.val } l
  simp only at this
  simp [this]

theorem C15_ParseBGPAttributes_cut_payload_witness :
    (∀ a ∈ sampleTLVs, a.payload.length ≤ 255) ∧ ([9] : List Byte).length < (5 : Byte).val ∧
    (ParseBGPAttributes (encodeTLVs sampleTLVs ++ 0x40 :: 1 :: 5 :: [9])
        = some (sampleTLVs.map attributeOf
                  ++ [attributeOf { flag := 0x40, type_ := 1,
                                    payload := zeros (5 : Byte).val }], []) ∧
      ParseBGPAttributes (encodeTLVs sampleTLVs) = some (sampleTLVs.map attributeOf, [])) :=
  ⟨by decide, by decide,
   C15_ParseBGPAttributes_cut_payload sampleTLVs 0x40 1 5 [9] (by decide) (by decide)⟩

/-- C16: for every complete TLV with flag byte f, standing anywhere in a run of complete
TLVs, the attribute `ParseBGPAttributes` returns at its position has Optional true iff
bit 7 of f is set, Transitive iff bit 6, Partial iff bit 5 and Extended iff bit 4, with
the type and payload of the TLV; the four booleans are independent of each other and of
the low four bits: whatever bits 7, 6, 5, 4 and whatever low four bits the flag byte is
made of, the four booleans are exactly those four bits. -/
theorem C16_ParseBGPAttributes_flags (front back : List TLV) (a : TLV)
    (hfront : ∀ x ∈ front, x.payload.length ≤ 255) (hback : ∀ x ∈ back, x.payload.length ≤ 255)
    (ha : a.payload.length ≤ 255) :
    ∃ x, ParseBGPAttributes (encodeTLVs (front ++ a :: back))
          = some (front.map attributeOf ++ x :: back.map attributeOf, []) ∧
      (x.Optional = true ↔ a.flag.val.testBit 7 = true) ∧
      (x.Transitive = true ↔ a.flag.val.testBit 6 = true) ∧
      (x.Partial = true ↔ a.flag.val.testBit 5 = true) ∧
      (x.Extended = true ↔ a.flag.val.testBit 4 = true) ∧
      x.Type_ = a.type_.val ∧ x.Data = a.payload ∧
      (∀ (o t p e : Bool) (lo : Fin 16), a.flag = flagByte o t p e lo →
        x.Optional = o ∧ x.Transitive = t ∧ x.Partial = p ∧ x.Extended = e) := by
  have hall : ∀ x ∈ front ++ a :: back, x.payload.length ≤ 255 := by
    intro x hx
    rcases List.mem_append.mp hx with h | h
    · exact hfront x h
    · rcases List.mem_cons.mp h with h | h
      · exact h ▸ ha
      · exact hback x h
  refine ⟨attributeOf a, ?_, Iff.rfl, Iff.rfl, Iff.rfl, Iff.rfl, rfl, rfl, ?_⟩
  · rw [ParseBGPAttributes_encode _ hall]
    simp
  · intro o t p e lo hflag
    obtain ⟨h7, h6, h5, h4⟩ := attributeOf_flagByte o t p e lo
    simp only [attributeOf, hflag]
    exact ⟨h7, h6, h5, h4⟩

theorem C16_ParseBGPAttributes_flags_witness :
    (∀ x ∈ sampleTLVs, x.payload.length ≤ 255) ∧
    ({ flag := 0xA7, type_ := 14, payload := [1, 2, 3] } : TLV).payload.length ≤ 255 ∧
    ∃ x, ParseBGPAttributes
            (encodeTLVs (sampleTLVs ++ { flag := 0xA7, type_ := 14, payload := [1, 2, 3] }
                          :: sampleTLVs))
          = some (sampleTLVs.map attributeOf ++ x :: sampleTLVs.map attributeOf, []) ∧
      (x.Optional = true ↔ (0xA7 : Byte).val.testBit 7 = true) ∧
      (x.Transitive = true ↔ (0xA7 : Byte).val.testBit 6 = true) ∧
      (x.Partial = true ↔ (0xA7 : Byte).val.testBit 5 = true) ∧
      (x.Extended = true ↔ (0xA7 : Byte).val.testBit 4 = true) ∧
      x.Type_ = (14 : Byte).val ∧ x.Data = [1, 2, 3] ∧
      (∀ (o t p e : Bool) (lo : Fin 16), (0xA7 : Byte) = flagByte o t p e lo →
        x.Optional = o ∧ x.Transitive = t ∧ x.Partial = p ∧ x.Extended = e) :=
  ⟨by decide, by decide,
   C16_ParseBGPAttributes_flags sampleTLVs sampleTLVs
     { flag := 0xA7, type_ := 14, payload := [1, 2, 3] } (by decide) (by decide) (by decide)⟩

/-- C17: `ParseBGPAttributes` reads one length byte whatever the extended flag says.
For every run made of complete TLVs followed by a TLV header (flag f, type, length
byte l) and any bytes after it, changing bit 4 of f changes only the Extended field of
the attribute decoded from that header: its other flags, its type, its Data (of
exactly l bytes) and all attributes before and after it are the same. In particular a
TLV with flags `90` (optional, extended), type 14 and the two-byte length `01 2C`
(300) before 300 payload bytes is decoded with a payload of one byte, the `2C`. -/
theorem C17_ParseBGPAttributes_single_length_byte (front : List TLV) (f ty l : Byte)
    (rest : List Byte) (h : ∀ a ∈ front, a.payload.length ≤ 255) :
    (∃ x more,
      ParseBGPAttributes (encodeTLVs front ++ f :: ty :: l :: rest)
        = some (front.map attributeOf ++ x :: more, []) ∧
      ParseBGPAttributes (encodeTLVs front ++ flipExtended f :: ty :: l :: rest)
        = some (front.map attributeOf ++ { x with Extended := !x.Extended } :: more, []) ∧
      x.Extended = f.val.testBit 4 ∧ x.Type_ = ty.val ∧ x.Data.length = l.val) ∧
    (∀ payload : List Byte, payload.length = 300 →
      ∃ more, ParseBGPAttributes (0x90 :: 14 :: 0x01 :: 0x2C :: payload)
        = some ({ Optional := true, Transitive := false, Partial := false, Extended := true,
                  Type_ := 14, Data := [0x2C] } :: more, [])) := by
  constructor
  · obtain ⟨⟨more, r'⟩, hmore⟩ := ParseBGPAttributes_returns (binaryRead rest l.val).2.2
    have hr' : r' = [] := (attributesLoop_count _ _ _ _ _ hmore).2
    subst hr'
    refine ⟨mkAttribute [f, ty, l] (binaryRead rest l.val).2.1, more, ?_, ?_, ?_, ?_, ?_⟩
    · rw [ParseBGPAttributes_append front _ h, ParseBGPAttributes_header, hmore]
      simp
    · rw [ParseBGPAttributes_append front _ h, ParseBGPAttributes_header, hmore,
        mkAttribute_flipExtended]
      simp
    · have := mkAttribute_encode
        { flag := f, type_ := ty, payload := (binaryRead rest l.val).2.1 } l
      simp only at this
      rw [this]
      rfl
    · rfl
    · exact binaryRead_data_length rest l.val
  · intro payload hp
    obtain ⟨⟨more, r'⟩, hmore⟩ := ParseBGPAttributes_returns payload
    have hr' : r' = [] := (attributesLoop_count _ _ _ _ _ hmore).2
    subst hr'
    refine ⟨more, ?_⟩
    have hb : binaryRead (0x2C :: payload) (0x01 : Byte).val = (none, [0x2C], payload) :=
      binaryRead_append [0x2C] payload 1 rfl
    rw [ParseBGPAttributes_header, hb]
    simp only [hmore, Option.map_some']
    rfl

theorem C17_ParseBGPAttributes_single_length_byte_witness :
    (∀ a ∈ sampleTLVs, a.payload.length ≤ 255) ∧
    ((∃ x more,
      ParseBGPAttributes (encodeTLVs sampleTLVs ++ 0x80 :: 14 :: 1 :: [0x2C, 0, 0, 0])
        = some (sampleTLVs.map attributeOf ++ x :: more, []) ∧
      ParseBGPAttributes
          (encodeTLVs sampleTLVs ++ flipExtended 0x80 :: 14 :: 1 :: [0x2C, 0, 0, 0])
        = some (sampleTLVs.map attributeOf ++ { x with Extended := !x.Extended } :: more, []) ∧
      x.Extended = (0x80 : Byte).val.testBit 4 ∧ x.Type_ = (14 : Byte).val ∧
      x.Data.length = (1 : Byte).val) ∧
    (∀ payload : List Byte, payload.length = 300 →
      ∃ more, ParseBGPAttributes (0x90 :: 14 :: 0x01 :: 0x2C :: payload)
        = some ({ Optional := true, Transitive := false, Partial := false, Extended := true,
                  Type_ := 14, Data := [0x2C] } :: more, []))) :=
  ⟨by decide,
   C17_ParseBGPAttributes_single_length_byte sampleTLVs 0x80 14 1 [0x2C, 0, 0, 0] (by decide)⟩

/-- C18: for every 4-byte collector id c and every view name v of 0 to 65535 bytes,
`ParsePeerIndexTable` applied to c, the 2-byte big-endian length of v, v and a 2-byte
peer count of 0 returns the table with CollectorBGPId = c, ViewName = v and no peer
entries, with the body consumed; the minimal body, c followed by four zero bytes,
gives an empty view name and no peer entries. -/
theorem C18_ParsePeerIndexTable_no_peers (c v : List Byte) (hc : c.length = 4)
    (hv : v.length ≤ 65535) :
    ParsePeerIndexTable (c ++ (encodeU16 v.length ++ (v ++ [0, 0])))
        = ({ CollectorBGPId := c, ViewName := v, PeerEntries := [] }, []) ∧
      ParsePeerIndexTable (c ++ [0, 0, 0, 0])
        = ({ CollectorBGPId := c, ViewName := [], PeerEntries := [] }, []) := by
  have h1 := ParsePeerIndexTable_wellformed c v [] 0 hc (by omega) (by decide)
  have h2 := ParsePeerIndexTable_wellformed c [] [] 0 hc (by decide) (by decide)
  exact ⟨h1, h2⟩

theorem C18_ParsePeerIndexTable_no_peers_witness :
    ([192, 0, 2, 1] : List Byte).length = 4 ∧ ([97, 98] : List Byte).length ≤ 65535 ∧
    (ParsePeerIndexTable
        ([192, 0, 2, 1] ++ (encodeU16 ([97, 98] : List Byte).length ++ ([97, 98] ++ [0, 0])))
        = ({ CollectorBGPId := [192, 0, 2, 1], ViewName := [97, 98], PeerEntries := [] }, []) ∧
      ParsePeerIndexTable ([192, 0, 2, 1] ++ [0, 0, 0, 0])
        = ({ CollectorBGPId := [192, 0, 2, 1], ViewName := [], PeerEntries := [] }, [])) :=
  ⟨by decide, by decide,
   C18_ParsePeerIndexTable_no_peers [192, 0, 2, 1] [97, 98] (by decide) (by decide)⟩

/-- C19: for every stream of n complete records followed by a complete 12-byte header
whose dataLength exceeds the number of bytes that remain (so is at least 1), `Parse`
drops the rest of the stream silently: it returns normally with the stream consumed and
exactly the n records decoded from the complete prefix, no record for the under-read
body, and the same parser as for the complete prefix alone, whatever the dropped bytes
are. -/
theorem C19_Parse_drops_rest (recs : List RawRecord) (h : header) (rest : List Byte)
    (old : List Record) (hc : ∀ r ∈ recs, r.complete) (hf : h.fits)
    (hshort : rest.length < h.DataLength) :
    1 ≤ h.DataLength ∧
    ∃ rs, rs.length = recs.length ∧ List.Forall₂ Decodes recs rs ∧
      Parse { File := encodeRecords recs ++ (encodeHeader h ++ rest), Records := old }
        = some { File := [], Records := rs } ∧
      Parse { File := encodeRecords recs ++ (encodeHeader h ++ rest), Records := old }
        = Parse { File := encodeRecords recs, Records := old } ∧
      ∀ dropped : List Byte, dropped.length < h.DataLength →
        Parse { File := encodeRecords recs ++ (encodeHeader h ++ dropped), Records := old }
          = some { File := [], Records := rs } := by
  obtain ⟨rs, hrs, hparse⟩ := Parse_records_tail recs hc
  obtain ⟨h1, h2, h3, h4⟩ := hf
  have key : ∀ dropped : List Byte, dropped.length < h.DataLength →
      Parse { File := encodeRecords recs ++ (encodeHeader h ++ dropped), Records := old }
        = some { File := [], Records := rs } := by
    intro dropped hd
    rw [hparse]
    apply parseLoop_short_body
    · simp [encodeHeader_length]
    · have e1 : List.take 12 (encodeHeader h ++ dropped) = encodeHeader h := by
        rw [List.take_append_of_le_length (by simp [encodeHeader_length])]
        exact List.take_of_length_le (by simp [encodeHeader_length])
      have e2 : List.drop 12 (encodeHeader h ++ dropped) = dropped := by
        rw [List.drop_append_of_le_length (by simp [encodeHeader_length])]
        simp [List.drop_eq_nil_of_le, encodeHeader_length]
      rw [e1, e2, decodeHeader_encodeHeader h h1 h2 h3 h4]
      exact hd
  have hprefix : Parse { File := encodeRecords recs, Records := old }
      = some { File := [], Records := rs } := by
    have := hparse [] old
    simp only [List.append_nil] at this
    rw [this]
    exact parseLoop_nil _ rs
  refine ⟨by omega, rs, hrs.length_eq.symm, hrs, key rest hshort, ?_, key⟩
  rw [key rest hshort, hprefix]

theorem C19_Parse_drops_rest_witness :
    (∀ r ∈ sampleRecords, r.complete) ∧
    ({ Timestamp := 3, Type_ := 13, Subtype := 4, DataLength := 20 } : header).fits ∧
    ([1, 2, 3, 4, 5, 6, 7, 8, 9, 10] : List Byte).length
      < ({ Timestamp := 3, Type_ := 13, Subtype := 4, DataLength := 20 } : header).DataLength ∧
    ∃ rs, rs.length = sampleRecords.length ∧ List.Forall₂ Decodes sampleRecords rs ∧
      Parse { File := encodeRecords sampleRecords ++
                (encodeHeader { Timestamp := 3, Type_ := 13, Subtype := 4, DataLength := 20 }
                  ++ [1, 2, 3, 4, 5, 6, 7, 8, 9, 10]), Records := [] }
        = some { File := [], Records := rs } :=
  ⟨by decide, by decide, by decide,
   (C19_Parse_drops_rest sampleRecords _ [1, 2, 3, 4, 5, 6, 7, 8, 9, 10] []
      (by decide) (by decide) (by decide)).2.elim
      (fun rs hrs => ⟨rs, hrs.1, hrs.2.1, hrs.2.2.1⟩)⟩

/-- C20: for every attribute byte run of n bytes `ParseBGPAttributes` returns (the fuel
it is given never runs out), with the run consumed and at most ceil(n/3) attributes.
The loop stops at the first header read that finds the run empty, and every other
iteration appends one attribute and leaves a strictly shorter run: at least three
bytes shorter when a full header was there, and empty when only one or two bytes were
left. -/
theorem C20_ParseBGPAttributes_terminates (r : List Byte) :
    (∃ as, ParseBGPAttributes r = some (as, []) ∧ as.length ≤ (r.length + 2) / 3) ∧
    (∀ (fuel : Nat) (acc : List BGPAttribute),
      attributesLoop (fuel + 1) [] acc = some (acc, [])) ∧
    (r ≠ [] → ∃ a r', r'.length < r.length ∧ (3 ≤ r.length → r'.length + 3 ≤ r.length) ∧
      (r.length < 3 → r' = []) ∧
      ∀ (fuel : Nat) (acc : List BGPAttribute),
        attributesLoop (fuel + 1) r acc = attributesLoop fuel r' (acc ++ [a])) := by
  refine ⟨?_, attributesLoop_nil, ?_⟩
  · obtain ⟨⟨as, rest⟩, hout⟩ := ParseBGPAttributes_returns r
    obtain ⟨hlen, hrest⟩ := attributesLoop_count _ _ _ _ _ hout
    subst hrest
    exact ⟨as, hout, by simpa using hlen⟩
  · intro hnil
    have hpos : 0 < r.length := List.length_pos.mpr hnil
    by_cases h3 : 3 ≤ r.length
    · have hle := binaryRead_rest_le (r.drop 3) ((r.take 3).getD 2 0).val
      simp only [List.length_drop] at hle
      refine ⟨_, (binaryRead (r.drop 3) ((r.take 3).getD 2 0).val).2.2, by omega,
        fun _ => by omega, fun h => by omega,
        fun fuel acc => attributesLoop_full fuel r acc h3⟩
    · exact ⟨_, [], by simpa using hpos, fun h => absurd h h3, fun _ => rfl,
        fun fuel acc => attributesLoop_remainder fuel r acc hnil (by omega)⟩

end mrt
